import Mathlib

/-!
QubeChallenge: distributor permissions over a region hierarchy.

A shallow embedding of `main.go`.  Go pointers (`*Region`, `*Distributor`) are
addresses into two heaps, Go maps are finite-lookup functions from keys, and the
two package-level maps `regions` and `distributors` are fields of the explicit
states `Catalog` and `Registry` that the embedded functions pass along.

`fmt.Println` tracing and the file/CSV reading of `LoadRegionsFromCSV` are left
out: the embedding starts from the parsed rows that follow the header.
-/

namespace QubeChallenge

/-! ## Data model -/

/-- Address of an object in a heap: a non-nil Go pointer.  `Option Ptr` is a
pointer that may be nil. -/
abbrev Ptr := Nat

/-- Go `map[string]V`: lookup gives `none` for an absent key. -/
abbrev GoMap (V : Type) := String → Option V

/-- The map made by `make(map[string]V)`. -/
def GoMap.empty {V : Type} : GoMap V := fun _ => none

/-- The Go assignment `m[k] = v`. -/
def GoMap.set {V : Type} (m : GoMap V) (k : String) (v : V) : GoMap V :=
  fun k' => if k' = k then some v else m k'

/-- The Go statement `delete(m, k)`. -/
def GoMap.delete {V : Type} (m : GoMap V) (k : String) : GoMap V :=
  fun k' => if k' = k then none else m k'

/-- The Go test `_, exists := m[k]`. -/
def GoMap.has {V : Type} (m : GoMap V) (k : String) : Bool := (m k).isSome

/-- The struct `Region`. -/
structure Region where
  Name : String
  Code : String
  Parent : Option Ptr
  Children : GoMap Ptr

/-- The struct `Distributor`; `map[string]struct{}` is a map to `Unit`. -/
structure Distributor where
  Name : String
  Includes : GoMap Unit
  Excludes : GoMap Unit
  Parent : Option Ptr

/-- The region side of the program state: the `Region` objects allocated so far
(address = position) and the package-level map `regions`. -/
structure Catalog where
  heap : List Region
  regions : GoMap Ptr

/-- The distributor side of the program state: the `Distributor` objects
allocated so far and the package-level map `distributors`. -/
structure Registry where
  heap : List Distributor
  distributors : GoMap Ptr

/-- One CSV row with its six fields `record[0]`, ..., `record[5]`. -/
structure Record where
  cityCode : String
  stateCode : String
  countryCode : String
  cityName : String
  stateName : String
  countryName : String

/-- The state of `var regions = make(map[string]*Region)` at program start. -/
def Catalog.empty : Catalog := { heap := [], regions := GoMap.empty }

/-- The state of `var distributors = make(map[string]*Distributor)` at program
start. -/
def Registry.empty : Registry := { heap := [], distributors := GoMap.empty }

/-- Write through a pointer: the object at address `p` becomes `f` of itself. -/
def modifyAt {α : Type} (f : α → α) : List α → Nat → List α
  | [], _ => []
  | a :: l, 0 => f a :: l
  | a :: l, n + 1 => a :: modifyAt f l n

/-! ## LoadRegionsFromCSV -/

/-- The statement `regions[key] = &Region{...}`: allocate the object and store
its address under `key`. -/
def newRegion (c : Catalog) (key : String) (r : Region) : Catalog :=
  { heap := c.heap ++ [r], regions := c.regions.set key c.heap.length }

/-- The statement `regions[parentKey].Children[childKey] = regions[childKey]`.
Both keys have just been ensured where the source runs it, so the fallback
branch (a nil dereference in Go) is never taken there. -/
def addChild (c : Catalog) (parentKey childKey : String) : Catalog :=
  match c.regions parentKey, c.regions childKey with
  | some p, some q =>
    { c with heap := modifyAt (fun r => { r with Children := r.Children.set childKey q }) c.heap p }
  | _, _ => c

/-- The block under `// Ensure country exists`. -/
def ensureCountry (c : Catalog) (countryCode countryName : String) : Catalog :=
  if c.regions.has countryCode then c
  else newRegion c countryCode
    { Name := countryName, Code := countryCode, Parent := none, Children := GoMap.empty }

/-- The blocks under `// Ensure state exists` and `// Ensure city exists`: they
differ only in the keys and the name. -/
def ensureChild (c : Catalog) (code name parentCode : String) : Catalog :=
  if c.regions.has code then c
  else addChild
    (newRegion c code
      { Name := name, Code := code, Parent := c.regions parentCode, Children := GoMap.empty })
    parentCode code

/-- The body of the loop `for _, record := range records`. -/
def loadRecord (c : Catalog) (record : Record) : Catalog :=
  let fullStateCode := record.stateCode ++ "-" ++ record.countryCode
  let fullCityCode := record.cityCode ++ "-" ++ fullStateCode
  let c1 := ensureCountry c record.countryCode record.countryName
  let c2 := ensureChild c1 fullStateCode record.stateName record.countryCode
  ensureChild c2 fullCityCode record.cityName fullStateCode

/-- The loop of `LoadRegionsFromCSV` over the rows read from the file. -/
def LoadRegionsFromCSV (c : Catalog) (records : List Record) : Catalog :=
  records.foldl loadRecord c

/-! ## AddDistributor and SetPermissions -/

/-- The function `AddDistributor`: allocates the distributor, stores it under its
name (replacing any earlier entry) and returns its address. -/
def AddDistributor (g : Registry) (name : String) (parent : Option Ptr) : Registry × Ptr :=
  ({ heap := g.heap ++
        [{ Name := name, Includes := GoMap.empty, Excludes := GoMap.empty, Parent := parent }],
     distributors := g.distributors.set name g.heap.length },
   g.heap.length)

/-- One iteration of the first loop of `SetPermissions`. -/
def includeStep (c : Catalog) (d : Distributor) (region : String) : Distributor :=
  if c.regions.has region then { d with Includes := d.Includes.set region () } else d

/-- One iteration of the second loop of `SetPermissions`. -/
def excludeStep (c : Catalog) (d : Distributor) (region : String) : Distributor :=
  if c.regions.has region then
    { d with Includes := d.Includes.delete region, Excludes := d.Excludes.set region () }
  else d

/-- The two loops of `SetPermissions` on the receiver object. -/
def setPermissionsOn (c : Catalog) (d : Distributor) (incl excl : List String) : Distributor :=
  excl.foldl (excludeStep c) (incl.foldl (includeStep c) d)

/-- The method `(d *Distributor) SetPermissions(include, exclude)`: the receiver
is the object at address `d`. -/
def SetPermissions (c : Catalog) (g : Registry) (d : Ptr) (incl excl : List String) : Registry :=
  { g with heap := modifyAt (fun x => setPermissionsOn c x incl excl) g.heap d }

/-! ## HasPermission -/

/-- The loop `for r := region; r != nil; r = r.Parent` of `HasPermission`.
`some (some b)` is a `return b` from inside the loop, `some none` is the loop
running to its end, and `none` is the loop still running when the fuel is spent
(or an address outside the heap, which no Go pointer is). -/
def walk (c : Catalog) (d : Distributor) : Nat → Option Ptr → Option (Option Bool)
  | _, none => some none
  | 0, some _ => none
  | fuel + 1, some p =>
    match c.heap[p]? with
    | none => none
    | some r =>
      if d.Excludes.has r.Code then some (some false)
      else if d.Includes.has r.Code then some (some true)
      else walk c d fuel r.Parent

/-- The method `(d *Distributor) HasPermission(location)`.  `fuel` bounds both
the nesting of the recursive calls and the iterations of each loop; `none` means
the fuel did not suffice. -/
def HasPermission (c : Catalog) (g : Registry) : Nat → Ptr → String → Option Bool
  | 0, _, _ => none
  | fuel + 1, d, location =>
    match c.regions location with
    | none => some false
    | some region =>
      match g.heap[d]? with
      | none => none
      | some dist =>
        match walk c dist fuel (some region) with
        | none => none
        | some (some b) => some b
        | some none =>
          match dist.Parent with
          | some parent => HasPermission c g fuel parent location
          | none => some false

/-! ## The ancestor walk as data -/

/-- The region reached from address `p` after `n` steps along `Parent`, when all
of these steps exist. -/
def nthAncestor (c : Catalog) : Nat → Ptr → Option Region
  | 0, p => c.heap[p]?
  | n + 1, p =>
    match c.heap[p]? with
    | some r =>
      match r.Parent with
      | some q => nthAncestor c n q
      | none => none
    | none => none

/-- The ancestor sequence from a pointer: the region, its parent, its
grandparent, ..., up to the region with no parent.  `none` when the sequence is
not complete within `fuel` regions. -/
def ancestorsOf (c : Catalog) : Nat → Option Ptr → Option (List Region)
  | _, none => some []
  | 0, some _ => none
  | fuel + 1, some p =>
    match c.heap[p]? with
    | none => none
    | some r => (ancestorsOf c fuel r.Parent).map (fun l => r :: l)

/-! ## Invariants of the catalog: definitions -/

/-- Number of hyphens in a code. -/
def hyphens (s : String) : Nat := s.data.count '-'

/-- Keys and objects agree: the object stored under key `k` has `Code = k`, and
every object of the heap is the one stored under its own code. -/
def Registered (c : Catalog) : Prop :=
  (∀ (k : String) (p : Ptr), c.regions k = some p → ∃ r, c.heap[p]? = some r ∧ r.Code = k) ∧
  (∀ (p : Ptr) (r : Region), c.heap[p]? = some r → c.regions r.Code = some p)

/-- A region is either a country (no hyphen in its code, no parent) or has a code
`a-b` and, as parent, the region stored under `b`, where `b` is a country code and
`a` a state code, or `b` is the full code of a state. -/
def Shape (regions : GoMap Ptr) (r : Region) : Prop :=
  (hyphens r.Code = 0 ∧ r.Parent = none) ∨
  ∃ a b, r.Code = a ++ "-" ++ b ∧ r.Parent = regions b ∧ (regions b).isSome = true ∧
    ((hyphens a = 0 ∧ hyphens b = 0) ∨ hyphens b = 1)

/-- Every object of the heap has the shape of its level. -/
def Shaped (c : Catalog) : Prop :=
  ∀ (p : Ptr) (r : Region), c.heap[p]? = some r → Shape c.regions r

/-- Nothing that is in `c` is lost or changed in `c'`, children sets apart. -/
def Grows (c c' : Catalog) : Prop :=
  (∀ (k : String) (p : Ptr), c.regions k = some p → c'.regions k = some p) ∧
  (∀ (p : Ptr) (r : Region), c.heap[p]? = some r →
    ∃ r', c'.heap[p]? = some r' ∧ r'.Code = r.Code ∧ r'.Parent = r.Parent ∧ r'.Name = r.Name)

/-- No state code and no country code of the rows contains a hyphen. -/
def HyphenFree (records : List Record) : Prop :=
  ∀ rec ∈ records, hyphens rec.stateCode = 0 ∧ hyphens rec.countryCode = 0

/-- The catalog after loading the single row BLR, KA, IN. -/
def catalogBLR : Catalog :=
  LoadRegionsFromCSV Catalog.empty
    [{ cityCode := "BLR", stateCode := "KA", countryCode := "IN",
       cityName := "Bangalore", stateName := "Karnataka", countryName := "India" }]

/-- The registry after `AddDistributor("D1", nil)` and
`SetPermissions(["IN"], ["KA-IN"])` on it, over `catalogBLR`. -/
def registryD1 : Registry :=
  SetPermissions catalogBLR (AddDistributor Registry.empty "D1" none).1
    (AddDistributor Registry.empty "D1" none).2 ["IN"] ["KA-IN"]

/-- The object of distributor D1 in `registryD1`. -/
def distD1 : Distributor :=
  setPermissionsOn catalogBLR
    { Name := "D1", Includes := GoMap.empty, Excludes := GoMap.empty, Parent := none }
    ["IN"] ["KA-IN"]

/-- A registry with a parent P including IN and a child without rules. -/
def registryChild : Registry :=
  (AddDistributor
    (SetPermissions catalogBLR (AddDistributor Registry.empty "P" none).1 0 ["IN"] [])
    "child" (some 0)).1

/-- Two rows where the country code of the first is the full state code of the
second. -/
def recordsCollide : List Record :=
  [{ cityCode := "x", stateCode := "y", countryCode := "KA-IN",
     cityName := "X", stateName := "Y", countryName := "Z" },
   { cityCode := "BLR", stateCode := "KA", countryCode := "IN",
     cityName := "Bangalore", stateName := "Karnataka", countryName := "India" }]

/-- The catalog of `recordsCollide`. -/
def catalogCollide : Catalog := LoadRegionsFromCSV Catalog.empty recordsCollide

/-- Two rows where the country code of the second is the full city code of the
first. -/
def recordsDeep : List Record :=
  [{ cityCode := "a", stateCode := "b", countryCode := "c",
     cityName := "A", stateName := "B", countryName := "C" },
   { cityCode := "x", stateCode := "y", countryCode := "a-b-c",
     cityName := "X", stateName := "Y", countryName := "Z" }]

/-- The region objects of `c` are still there in `c'` and have kept every key of
their children sets. -/
def KeepsChildren (c c' : Catalog) : Prop :=
  ∀ (p : Ptr) (r : Region), c.heap[p]? = some r →
    ∃ r', c'.heap[p]? = some r' ∧ ∀ k, r.Children.has k = true → r'.Children.has k = true

/-- Every `Parent` pointer of a region points to an object allocated earlier. -/
def ParentBelow (c : Catalog) : Prop :=
  ∀ (p : Nat) (r : Region), c.heap[p]? = some r → ∀ q : Nat, r.Parent = some q → q < p

/-- Every `Parent` pointer of a distributor points to an object allocated
earlier. -/
def ParentEarlier (g : Registry) : Prop :=
  ∀ (d : Nat) (dist : Distributor), g.heap[d]? = some dist →
    ∀ q : Nat, dist.Parent = some q → q < d

/-- The registries the program can reach: from the empty registry, by
`AddDistributor` with a parent that is nil or the address of a distributor
created before, and by `SetPermissions` (against any catalog). -/
inductive Built : Registry → Prop
  | start : Built Registry.empty
  | add (g : Registry) (name : String) (parent : Option Ptr) :
      Built g → (∀ q : Nat, parent = some q → q < g.heap.length) →
      Built (AddDistributor g name parent).1
  | set (c : Catalog) (g : Registry) (d : Ptr) (incl excl : List String) :
      Built g → Built (SetPermissions c g d incl excl)

/-- The four `return` statements of `HasPermission`, in source order. -/
inductive ReturnPoint where
  | unknownRegion
  | excludedRegion
  | includedRegion
  | noParent

/-- The value returned at each `return` statement of `HasPermission`. -/
def ReturnPoint.value : ReturnPoint → Bool
  | .unknownRegion => false
  | .excludedRegion => false
  | .includedRegion => true
  | .noParent => false

/-- The method `HasPermission` again, recording the `return` statement through
which the call (or the innermost recursive call) leaves instead of its value. -/
def HasPermissionAt (c : Catalog) (g : Registry) : Nat → Ptr → String → Option ReturnPoint
  | 0, _, _ => none
  | fuel + 1, d, location =>
    match c.regions location with
    | none => some .unknownRegion
    | some region =>
      match g.heap[d]? with
      | none => none
      | some dist =>
        match walk c dist fuel (some region) with
        | none => none
        | some (some false) => some .excludedRegion
        | some (some true) => some .includedRegion
        | some none =>
          match dist.Parent with
          | some parent => HasPermissionAt c g fuel parent location
          | none => some .noParent

/-- The distributor reached from address `d` after `n` steps along `Parent`, when
all of these steps exist. -/
def nthParent (g : Registry) : Nat → Ptr → Option Distributor
  | 0, d => g.heap[d]?
  | n + 1, d =>
    match g.heap[d]? with
    | some dist =>
      match dist.Parent with
      | some q => nthParent g n q
      | none => none
    | none => none

/-- Over `catalogBLR`: P without parent after `SetPermissions([], ["IN"])`, and a
child of P after `SetPermissions(["IN"], [])`. -/
def registryOverride : Registry :=
  SetPermissions catalogBLR
    (AddDistributor
      (SetPermissions catalogBLR (AddDistributor Registry.empty "P" none).1 0 [] ["IN"])
      "C" (some 0)).1
    1 ["IN"] []

theorem walk_mono (c : Catalog) (d : Distributor) :
    ∀ (fuel : Nat) (p : Option Ptr) (x : Option Bool),
      walk c d fuel p = some x → walk c d (fuel + 1) p = some x := by
  intro fuel
  induction fuel with
  | zero =>
    intro p x h
    cases p with
    | none => simpa [walk] using h
    | some p => simp [walk] at h
  | succ n ih =>
    intro p x h
    cases p with
    | none => simpa [walk] using h
    | some p =>
      rw [walk] at h
      rw [walk]
      cases hp : c.heap[p]? with
      | none => simp [hp] at h
      | some r =>
        simp only [hp] at h ⊢
        by_cases he : d.Excludes.has r.Code = true
        · simpa [he] using h
        · by_cases hi : d.Includes.has r.Code = true
          · simpa [he, hi] using h
          · simp only [he, hi, if_false] at h ⊢
            exact ih _ _ h

theorem walk_mono_le (c : Catalog) (d : Distributor) (fuel fuel' : Nat) (p : Option Ptr)
    (x : Option Bool) (hle : fuel ≤ fuel') (h : walk c d fuel p = some x) :
    walk c d fuel' p = some x := by
  induction hle with
  | refl => exact h
  | step _ ih => exact walk_mono c d _ p x ih

theorem HasPermission_mono (c : Catalog) (g : Registry) (location : String) :
    ∀ (fuel : Nat) (d : Ptr) (b : Bool),
      HasPermission c g fuel d location = some b →
      HasPermission c g (fuel + 1) d location = some b := by
  intro fuel
  induction fuel with
  | zero => intro d b h; simp [HasPermission] at h
  | succ n ih =>
    intro d b h
    rw [HasPermission] at h
    rw [HasPermission]
    cases hl : c.regions location with
    | none => simpa [hl] using h
    | some region =>
      simp only [hl] at h ⊢
      cases hd : g.heap[d]? with
      | none => simp [hd] at h
      | some dist =>
        simp only [hd] at h ⊢
        cases hw : walk c dist n (some region) with
        | none => simp [hw] at h
        | some x =>
          rw [walk_mono c dist n _ x hw]
          simp only [hw] at h
          cases x with
          | some b' => simpa using h
          | none =>
            simp only at h ⊢
            cases hp : dist.Parent with
            | none => simpa [hp] using h
            | some parent =>
              simp only [hp] at h ⊢
              exact ih _ _ h

theorem HasPermission_mono_le (c : Catalog) (g : Registry) (location : String)
    (fuel fuel' : Nat) (d : Ptr) (b : Bool) (hle : fuel ≤ fuel')
    (h : HasPermission c g fuel d location = some b) :
    HasPermission c g fuel' d location = some b := by
  induction hle with
  | refl => exact h
  | step _ ih => exact HasPermission_mono c g location _ d b ih

/-- The loop returns at the first region of the walk that carries a rule. -/
theorem walk_first_rule (c : Catalog) (d : Distributor) :
    ∀ (n : Nat) (p : Ptr) (r : Region) (fuel : Nat),
      nthAncestor c n p = some r →
      (∀ m r', m < n → nthAncestor c m p = some r' →
        d.Excludes.has r'.Code = false ∧ d.Includes.has r'.Code = false) →
      (d.Excludes.has r.Code = true ∨ d.Includes.has r.Code = true) →
      n < fuel →
      walk c d fuel (some p) = some (some (!d.Excludes.has r.Code)) := by
  intro n
  induction n with
  | zero =>
    intro p r fuel hr _ hrule hfuel
    obtain ⟨f, rfl⟩ : ∃ f, fuel = f + 1 := ⟨fuel - 1, by omega⟩
    simp only [nthAncestor] at hr
    rw [walk]
    simp only [hr]
    rcases hrule with he | hi
    · simp [he]
    · by_cases he : d.Excludes.has r.Code = true
      · simp [he]
      · simp [he, hi]
  | succ n ih =>
    intro p r fuel hr hfirst hrule hfuel
    obtain ⟨f, rfl⟩ : ∃ f, fuel = f + 1 := ⟨fuel - 1, by omega⟩
    rw [walk]
    cases hp : c.heap[p]? with
    | none => simp [nthAncestor, hp] at hr
    | some r0 =>
      have h0 := hfirst 0 r0 (by omega) (by simpa [nthAncestor] using hp)
      simp only [h0.1, h0.2]
      simp only [nthAncestor, hp] at hr
      cases hq : r0.Parent with
      | none => simp [hq] at hr
      | some q =>
        simp only [hq] at hr
        simp only [Bool.false_eq_true, if_false]
        refine ih q r f hr ?_ hrule (by omega)
        intro m r' hm hr'
        exact hfirst (m + 1) r' (by omega) (by simpa [nthAncestor, hp, hq] using hr')

theorem ancestorsOf_length_le (c : Catalog) :
    ∀ (fuel : Nat) (p : Option Ptr) (l : List Region),
      ancestorsOf c fuel p = some l → l.length ≤ fuel := by
  intro fuel
  induction fuel with
  | zero =>
    intro p l h
    cases p with
    | none => simp [ancestorsOf] at h; simp [← h]
    | some p => simp [ancestorsOf] at h
  | succ n ih =>
    intro p l h
    cases p with
    | none => simp [ancestorsOf] at h; subst h; simp
    | some p =>
      rw [ancestorsOf] at h
      cases hp : c.heap[p]? with
      | none => simp [hp] at h
      | some r =>
        simp only [hp, Option.map_eq_some'] at h
        obtain ⟨l', hl', rfl⟩ := h
        have := ih _ _ hl'
        simp; omega

/-- The loop runs to its end when no region of the ancestor sequence carries a
rule. -/
theorem walk_silent (c : Catalog) (d : Distributor) :
    ∀ (k : Nat) (p : Option Ptr) (l : List Region) (fuel : Nat),
      ancestorsOf c k p = some l →
      (∀ r ∈ l, d.Excludes.has r.Code = false ∧ d.Includes.has r.Code = false) →
      l.length ≤ fuel →
      walk c d fuel p = some none := by
  intro k
  induction k with
  | zero =>
    intro p l fuel h _ _
    cases p with
    | none => cases fuel <;> simp [walk]
    | some p => simp [ancestorsOf] at h
  | succ n ih =>
    intro p l fuel h hs hf
    cases p with
    | none => cases fuel <;> simp [walk]
    | some p =>
      rw [ancestorsOf] at h
      cases hp : c.heap[p]? with
      | none => simp [hp] at h
      | some r =>
        simp only [hp, Option.map_eq_some'] at h
        obtain ⟨l', hl', rfl⟩ := h
        simp only [List.length_cons] at hf
        obtain ⟨f, rfl⟩ : ∃ f, fuel = f + 1 := ⟨fuel - 1, by omega⟩
        rw [walk]
        have h0 := hs r (by simp)
        simp only [hp, h0.1, h0.2, Bool.false_eq_true, if_false]
        exact ih _ l' f hl' (fun r' hr' => hs r' (by simp [hr'])) (by omega)

/-- Unfolding of `HasPermission` for a distributor whose rules are silent on the
whole ancestor sequence of the location. -/
theorem HasPermission_silent (c : Catalog) (g : Registry) (d : Ptr) (dist : Distributor)
    (location : String) (k : Nat) (l : List Region)
    (hd : g.heap[d]? = some dist)
    (hchain : ancestorsOf c k (c.regions location) = some l)
    (hsilent : ∀ r ∈ l, dist.Excludes.has r.Code = false ∧ dist.Includes.has r.Code = false)
    (fuel : Nat) (hfuel : l.length ≤ fuel) :
    HasPermission c g (fuel + 1) d location =
      match c.regions location, dist.Parent with
      | none, _ => some false
      | some _, some parent => HasPermission c g fuel parent location
      | some _, none => some false := by
  rw [HasPermission]
  cases hl : c.regions location with
  | none => rfl
  | some region =>
    simp only [hd]
    rw [hl] at hchain
    rw [walk_silent c dist k _ l fuel hchain hsilent hfuel]
    cases dist.Parent <;> rfl

/-! ## Claims on HasPermission -/

/-- C1: when some region on the ancestor walk of a known location carries a rule
of the distributor, `HasPermission` returns the verdict of the first such region
`r`: false if `r.Code` is excluded, true otherwise.  The value is a function of
`r` and the distributor's own sets only, so neither `Parent` nor a rule on a less
specific region enters it. -/
theorem C1_first_matching_region_decides (c : Catalog) (g : Registry) (d : Ptr)
    (dist : Distributor) (location : String) (region : Ptr) (n : Nat) (r : Region) (fuel : Nat)
    (hloc : c.regions location = some region)
    (hd : g.heap[d]? = some dist)
    (hr : nthAncestor c n region = some r)
    (hfirst : ∀ m r', m < n → nthAncestor c m region = some r' →
      dist.Excludes.has r'.Code = false ∧ dist.Includes.has r'.Code = false)
    (hrule : dist.Excludes.has r.Code = true ∨ dist.Includes.has r.Code = true)
    (hfuel : n + 1 < fuel) :
    HasPermission c g fuel d location = some (!dist.Excludes.has r.Code) := by
  obtain ⟨f, rfl⟩ : ∃ f, fuel = f + 1 := ⟨fuel - 1, by omega⟩
  rw [HasPermission]
  simp only [hloc, hd]
  rw [walk_first_rule c dist n region r f hr hfirst hrule (by omega)]

/-- Witness of C1: D1 includes IN and excludes KA-IN; for the city BLR-KA-IN the
first region with a rule is its parent KA-IN, one step up, and the verdict is
false although the grandparent IN is included. -/
theorem C1_first_matching_region_decides_witness :
    HasPermission catalogBLR registryD1 3 0 "BLR-KA-IN" = some false :=
  C1_first_matching_region_decides catalogBLR registryD1 0 distD1 "BLR-KA-IN" 2 1
    { Name := "Karnataka", Code := "KA-IN", Parent := some 0,
      Children := (GoMap.empty : GoMap Ptr).set "BLR-KA-IN" 2 }
    3 rfl rfl rfl
    (by
      intro m r' hm hr'
      have hm0 : m = 0 := by omega
      subst hm0
      have hcode : r'.Code = "BLR-KA-IN" := by
        have h2 : nthAncestor catalogBLR 0 2 =
            some { Name := "Bangalore", Code := "BLR-KA-IN", Parent := some 1,
                   Children := GoMap.empty } := rfl
        rw [h2] at hr'
        cases hr'
        rfl
      rw [hcode]
      exact ⟨rfl, rfl⟩)
    (Or.inl rfl) (by decide)

/-- The object allocated by `AddDistributor` is found at the returned address. -/
theorem AddDistributor_get (g : Registry) (name : String) (parent : Option Ptr) :
    (AddDistributor g name parent).1.heap[(AddDistributor g name parent).2]? =
      some { Name := name, Includes := GoMap.empty, Excludes := GoMap.empty, Parent := parent } := by
  simp [AddDistributor]

/-- C2: when no region on the (finite) ancestor walk of a known location carries
a rule of distributor `d`, `HasPermission(d, loc)` is `HasPermission(d.Parent, loc)`
if `d` has a parent (same result, one more unit of fuel) and false if it has none;
so a freshly added distributor without parent gets false for every location
code, known or unknown. -/
theorem C2_silent_rules_defer_to_parent (c : Catalog) (g : Registry) (d : Ptr)
    (dist : Distributor) (location : String) (region : Ptr) (k : Nat) (l : List Region)
    (hloc : c.regions location = some region)
    (hd : g.heap[d]? = some dist)
    (hchain : ancestorsOf c k (some region) = some l)
    (hsilent : ∀ r ∈ l, dist.Excludes.has r.Code = false ∧ dist.Includes.has r.Code = false) :
    (∀ parent, dist.Parent = some parent →
      (∀ fuel, l.length ≤ fuel →
        HasPermission c g (fuel + 1) d location = HasPermission c g fuel parent location) ∧
      (∀ b, (∃ fuel, HasPermission c g fuel d location = some b) ↔
            (∃ fuel, HasPermission c g fuel parent location = some b))) ∧
    (dist.Parent = none →
      ∀ fuel, l.length < fuel → HasPermission c g fuel d location = some false) ∧
    (∀ (g' : Registry) (name loc : String) (k' : Nat) (l' : List Region),
      ancestorsOf c k' (c.regions loc) = some l' →
      ∀ fuel, l'.length < fuel →
        HasPermission c (AddDistributor g' name none).1 fuel (AddDistributor g' name none).2 loc
          = some false) := by
  have hchain' : ancestorsOf c k (c.regions location) = some l := by rw [hloc]; exact hchain
  have key := HasPermission_silent c g d dist location k l hd hchain' hsilent
  refine ⟨?_, ?_, ?_⟩
  · intro parent hp
    have heq : ∀ fuel, l.length ≤ fuel →
        HasPermission c g (fuel + 1) d location = HasPermission c g fuel parent location := by
      intro fuel hf
      rw [key fuel hf, hloc, hp]
    refine ⟨heq, fun b => ⟨?_, ?_⟩⟩
    · rintro ⟨fuel, h⟩
      refine ⟨max fuel l.length, ?_⟩
      rw [← heq _ (le_max_right _ _)]
      exact HasPermission_mono_le c g location fuel _ d b
        (le_trans (le_max_left _ _) (Nat.le_succ _)) h
    · rintro ⟨fuel, h⟩
      refine ⟨max fuel l.length + 1, ?_⟩
      rw [heq _ (le_max_right _ _)]
      exact HasPermission_mono_le c g location fuel _ parent b (le_max_left _ _) h
  · intro hp fuel hf
    obtain ⟨f, rfl⟩ : ∃ f, fuel = f + 1 := ⟨fuel - 1, by omega⟩
    rw [key f (by omega), hloc, hp]
  · intro g' name loc k' l' hc fuel hf
    obtain ⟨f, rfl⟩ : ∃ f, fuel = f + 1 := ⟨fuel - 1, by omega⟩
    rw [HasPermission_silent c _ _ _ loc k' l' (AddDistributor_get g' name none) hc
      (fun _ _ => ⟨rfl, rfl⟩) f (by omega)]
    cases c.regions loc <;> rfl

/-- Witness of C2: the child has no rules and its parent P includes IN; on the
city BLR-KA-IN, with ancestor sequence of three regions, the child's call with
fuel 6 is the parent's call with fuel 5. -/
theorem C2_silent_rules_defer_to_parent_witness :
    HasPermission catalogBLR registryChild 6 1 "BLR-KA-IN" =
      HasPermission catalogBLR registryChild 5 0 "BLR-KA-IN" :=
  ((C2_silent_rules_defer_to_parent catalogBLR registryChild 1
      { Name := "child", Includes := GoMap.empty, Excludes := GoMap.empty, Parent := some 0 }
      "BLR-KA-IN" 2 3
      [{ Name := "Bangalore", Code := "BLR-KA-IN", Parent := some 1, Children := GoMap.empty },
       { Name := "Karnataka", Code := "KA-IN", Parent := some 0,
         Children := (GoMap.empty : GoMap Ptr).set "BLR-KA-IN" 2 },
       { Name := "India", Code := "IN", Parent := none,
         Children := (GoMap.empty : GoMap Ptr).set "KA-IN" 1 }]
      rfl rfl rfl (fun _ _ => ⟨rfl, rfl⟩)).1 0 rfl).1 5 (by decide)

/-- C3: for a location code that is not a key of the catalog, `HasPermission`
returns false as soon as it has fuel for one call, whatever the distributor
pointer, its rule sets and its parent chain. -/
theorem C3_unknown_location_is_denied (c : Catalog) (g : Registry) (d : Ptr)
    (location : String) (fuel : Nat) (hloc : c.regions location = none) :
    HasPermission c g (fuel + 1) d location = some false := by
  rw [HasPermission, hloc]

/-- Witness of C3: the code ZZ was never loaded. -/
theorem C3_unknown_location_is_denied_witness :
    catalogBLR.regions "ZZ" = none ∧
    HasPermission catalogBLR registryD1 1 0 "ZZ" = some false :=
  ⟨rfl, C3_unknown_location_is_denied catalogBLR registryD1 0 "ZZ" 0 rfl⟩

/-! ## Heap writes -/

theorem modifyAt_getElem? {α : Type} (f : α → α) :
    ∀ (l : List α) (p q : Nat),
      (modifyAt f l p)[q]? = if q = p then (l[q]?).map f else l[q]? := by
  intro l
  induction l with
  | nil => intro p q; simp [modifyAt]
  | cons a l ih =>
    intro p q
    cases p with
    | zero =>
      cases q with
      | zero => simp [modifyAt]
      | succ q => simp [modifyAt]
    | succ p =>
      cases q with
      | zero => simp [modifyAt]
      | succ q => simp [modifyAt, ih]

theorem modifyAt_length {α : Type} (f : α → α) :
    ∀ (l : List α) (p : Nat), (modifyAt f l p).length = l.length := by
  intro l
  induction l with
  | nil => intro p; simp [modifyAt]
  | cons a l ih =>
    intro p
    cases p with
    | zero => simp [modifyAt]
    | succ p => simp [modifyAt, ih]

theorem GoMap.has_set {V : Type} (m : GoMap V) (k : String) (v : V) (k' : String) :
    (m.set k v).has k' = (decide (k' = k) || m.has k') := by
  unfold GoMap.has GoMap.set
  by_cases h : k' = k <;> simp [h]

theorem GoMap.has_delete {V : Type} (m : GoMap V) (k : String) (k' : String) :
    (m.delete k).has k' = (!decide (k' = k) && m.has k') := by
  unfold GoMap.has GoMap.delete
  by_cases h : k' = k <;> simp [h]

theorem GoMap.has_empty {V : Type} (k : String) : (GoMap.empty : GoMap V).has k = false := rfl

/-- Two maps to `Unit` with the same keys are the same map. -/
theorem GoMap.ext_has (m m' : GoMap Unit) (h : ∀ k, m.has k = m'.has k) : m = m' := by
  funext k
  have hk := h k
  unfold GoMap.has at hk
  cases h1 : m k <;> cases h2 : m' k <;> simp [h1, h2] at hk ⊢

/-! ## SetPermissions on the receiver -/

theorem includeLoop_spec (c : Catalog) (incl : List String) :
    ∀ (d : Distributor),
      (∀ k, (incl.foldl (includeStep c) d).Includes.has k =
        (d.Includes.has k || (decide (k ∈ incl) && c.regions.has k))) ∧
      (incl.foldl (includeStep c) d).Excludes = d.Excludes ∧
      (incl.foldl (includeStep c) d).Name = d.Name ∧
      (incl.foldl (includeStep c) d).Parent = d.Parent := by
  induction incl with
  | nil => intro d; simp
  | cons a incl ih =>
    intro d
    simp only [List.foldl_cons]
    obtain ⟨h1, h2, h3, h4⟩ := ih (includeStep c d a)
    refine ⟨?_, ?_, ?_, ?_⟩
    · intro k
      rw [h1 k]
      unfold includeStep
      by_cases ha : c.regions.has a = true
      · by_cases hk : k = a
        · subst hk; simp [ha, GoMap.has_set]
        · simp [ha, GoMap.has_set, hk]
      · by_cases hk : k = a
        · subst hk; simp [ha]
        · simp [ha, hk]
    · rw [h2]; unfold includeStep; split <;> rfl
    · rw [h3]; unfold includeStep; split <;> rfl
    · rw [h4]; unfold includeStep; split <;> rfl

theorem excludeLoop_spec (c : Catalog) (excl : List String) :
    ∀ (d : Distributor),
      (∀ k, (excl.foldl (excludeStep c) d).Includes.has k =
        (d.Includes.has k && !(decide (k ∈ excl) && c.regions.has k))) ∧
      (∀ k, (excl.foldl (excludeStep c) d).Excludes.has k =
        (d.Excludes.has k || (decide (k ∈ excl) && c.regions.has k))) ∧
      (excl.foldl (excludeStep c) d).Name = d.Name ∧
      (excl.foldl (excludeStep c) d).Parent = d.Parent := by
  induction excl with
  | nil => intro d; simp
  | cons a excl ih =>
    intro d
    simp only [List.foldl_cons]
    obtain ⟨h1, h2, h3, h4⟩ := ih (excludeStep c d a)
    refine ⟨?_, ?_, ?_, ?_⟩
    · intro k
      rw [h1 k]
      unfold excludeStep
      by_cases ha : c.regions.has a = true
      · by_cases hk : k = a
        · subst hk; simp [ha, GoMap.has_delete]
        · simp [ha, GoMap.has_delete, hk]
      · by_cases hk : k = a
        · subst hk; simp [ha]
        · simp [ha, hk]
    · intro k
      rw [h2 k]
      unfold excludeStep
      by_cases ha : c.regions.has a = true
      · by_cases hk : k = a
        · subst hk; simp [ha, GoMap.has_set]
        · simp [ha, GoMap.has_set, hk]
      · by_cases hk : k = a
        · subst hk; simp [ha]
        · simp [ha, hk]
    · rw [h3]; unfold excludeStep; split <;> rfl
    · rw [h4]; unfold excludeStep; split <;> rfl

/-- What the two loops of `SetPermissions` leave in the receiver. -/
theorem setPermissionsOn_spec (c : Catalog) (d : Distributor) (incl excl : List String) :
    (∀ k, (setPermissionsOn c d incl excl).Includes.has k =
      ((d.Includes.has k || (decide (k ∈ incl) && c.regions.has k)) &&
        !(decide (k ∈ excl) && c.regions.has k))) ∧
    (∀ k, (setPermissionsOn c d incl excl).Excludes.has k =
      (d.Excludes.has k || (decide (k ∈ excl) && c.regions.has k))) ∧
    (setPermissionsOn c d incl excl).Name = d.Name ∧
    (setPermissionsOn c d incl excl).Parent = d.Parent := by
  unfold setPermissionsOn
  obtain ⟨i1, i2, i3, i4⟩ := includeLoop_spec c incl d
  obtain ⟨e1, e2, e3, e4⟩ := excludeLoop_spec c excl (incl.foldl (includeStep c) d)
  refine ⟨?_, ?_, ?_, ?_⟩
  · intro k; rw [e1 k, i1 k]
  · intro k; rw [e2 k, i2]
  · rw [e3, i3]
  · rw [e4, i4]

/-- The receiver of `SetPermissions` after the call. -/
theorem SetPermissions_get (c : Catalog) (g : Registry) (d : Ptr) (dist : Distributor)
    (incl excl : List String) (hd : g.heap[d]? = some dist) :
    (SetPermissions c g d incl excl).heap[d]? = some (setPermissionsOn c dist incl excl) := by
  simp [SetPermissions, modifyAt_getElem?, hd]

/-- Every other distributor is left as it was by `SetPermissions`. -/
theorem SetPermissions_get_other (c : Catalog) (g : Registry) (d d' : Ptr)
    (incl excl : List String) (hne : d' ≠ d) :
    (SetPermissions c g d incl excl).heap[d']? = g.heap[d']? := by
  simp [SetPermissions, modifyAt_getElem?, hne]

/-! ## Invariants of the catalog -/

theorem hyphens_append (a b : String) : hyphens (a ++ b) = hyphens a + hyphens b := by
  simp [hyphens, String.data_append, List.count_append]

theorem hyphens_dash : hyphens "-" = 1 := by decide

theorem hyphens_join (a b : String) : hyphens (a ++ "-" ++ b) = hyphens a + 1 + hyphens b := by
  rw [hyphens_append, hyphens_append, hyphens_dash]

theorem Grows.refl (c : Catalog) : Grows c c :=
  ⟨fun _ _ h => h, fun _ r h => ⟨r, h, rfl, rfl, rfl⟩⟩

theorem Grows.trans {c c' c'' : Catalog} (h : Grows c c') (h' : Grows c' c'') : Grows c c'' := by
  refine ⟨fun k p hk => h'.1 k p (h.1 k p hk), fun p r hr => ?_⟩
  obtain ⟨r', hr', e1, e2, e3⟩ := h.2 p r hr
  obtain ⟨r'', hr'', f1, f2, f3⟩ := h'.2 p r' hr'
  exact ⟨r'', hr'', f1.trans e1, f2.trans e2, f3.trans e3⟩

theorem Shape.mono {m m' : GoMap Ptr} {r r' : Region} (h : Shape m r)
    (hm : ∀ b, (m b).isSome = true → m' b = m b)
    (hc : r'.Code = r.Code) (hp : r'.Parent = r.Parent) : Shape m' r' := by
  rcases h with ⟨h0, hn⟩ | ⟨a, b, hab, hpar, hsome, hl⟩
  · exact Or.inl ⟨by rw [hc]; exact h0, by rw [hp]; exact hn⟩
  · refine Or.inr ⟨a, b, by rw [hc]; exact hab, ?_, ?_, hl⟩
    · rw [hp, hpar, hm b hsome]
    · rw [hm b hsome]; exact hsome

theorem newRegion_regions (c : Catalog) (k : String) (r : Region) (k' : String) :
    (newRegion c k r).regions k' = if k' = k then some c.heap.length else c.regions k' := rfl

theorem newRegion_getElem? (c : Catalog) (k : String) (r : Region) (q : Nat) :
    (newRegion c k r).heap[q]? =
      if q < c.heap.length then c.heap[q]? else if q = c.heap.length then some r else none := by
  unfold newRegion
  by_cases h : q < c.heap.length
  · simp [h, List.getElem?_append_left]
  · by_cases h' : q = c.heap.length
    · subst h'; simp
    · have : c.heap.length + 1 ≤ q := by omega
      simp [h, h', List.getElem?_eq_none, this]

theorem getElem?_lt {α : Type} {l : List α} {p : Nat} {a : α} (h : l[p]? = some a) :
    p < l.length := by
  by_contra hn
  rw [List.getElem?_eq_none (by omega)] at h
  cases h

/-- The write of `addChild` touches the children set of one object only. -/
theorem addChild_getElem? (c : Catalog) (a b : String) (q : Nat) :
    ∃ f : Region → Region,
      (∀ r, (f r).Code = r.Code ∧ (f r).Parent = r.Parent ∧ (f r).Name = r.Name) ∧
      (addChild c a b).heap[q]? = (c.heap[q]?).map f := by
  unfold addChild
  cases ha : c.regions a with
  | none => exact ⟨id, fun _ => ⟨rfl, rfl, rfl⟩, by simp⟩
  | some p =>
    cases hb : c.regions b with
    | none => exact ⟨id, fun _ => ⟨rfl, rfl, rfl⟩, by simp⟩
    | some q' =>
      by_cases hq : q = p
      · exact ⟨fun r => { r with Children := r.Children.set b q' },
          fun _ => ⟨rfl, rfl, rfl⟩, by simp [modifyAt_getElem?, hq]⟩
      · exact ⟨id, fun _ => ⟨rfl, rfl, rfl⟩, by simp [modifyAt_getElem?, hq]⟩

theorem addChild_regions (c : Catalog) (a b : String) : (addChild c a b).regions = c.regions := by
  unfold addChild
  cases c.regions a <;> cases c.regions b <;> rfl

theorem addChild_grows (c : Catalog) (a b : String) : Grows c (addChild c a b) := by
  refine ⟨fun k p h => by rw [addChild_regions]; exact h, fun p r hr => ?_⟩
  obtain ⟨f, hf, he⟩ := addChild_getElem? c a b p
  exact ⟨f r, by rw [he, hr]; rfl, (hf r).1, (hf r).2.1, (hf r).2.2⟩

theorem addChild_registered (c : Catalog) (a b : String) (h : Registered c) :
    Registered (addChild c a b) := by
  refine ⟨fun k p hk => ?_, fun p r hr => ?_⟩
  · rw [addChild_regions] at hk
    obtain ⟨r, hr, hc⟩ := h.1 k p hk
    obtain ⟨f, hf, he⟩ := addChild_getElem? c a b p
    exact ⟨f r, by rw [he, hr]; rfl, by rw [(hf r).1, hc]⟩
  · obtain ⟨f, hf, he⟩ := addChild_getElem? c a b p
    rw [he] at hr
    cases h0 : c.heap[p]? with
    | none => simp [h0] at hr
    | some r0 =>
      simp only [h0, Option.map_some', Option.some.injEq] at hr
      subst hr
      rw [addChild_regions, (hf r0).1]
      exact h.2 p r0 h0

theorem addChild_shaped (c : Catalog) (a b : String) (h : Shaped c) :
    Shaped (addChild c a b) := by
  intro p r hr
  obtain ⟨f, hf, he⟩ := addChild_getElem? c a b p
  rw [he] at hr
  cases h0 : c.heap[p]? with
  | none => simp [h0] at hr
  | some r0 =>
    simp only [h0, Option.map_some', Option.some.injEq] at hr
    subst hr
    rw [addChild_regions]
    exact (h p r0 h0).mono (fun _ _ => rfl) (hf r0).1 (hf r0).2.1

theorem newRegion_grows (c : Catalog) (k : String) (r : Region) (hfresh : c.regions k = none) :
    Grows c (newRegion c k r) := by
  refine ⟨fun k' p h => ?_, fun p r' hr' => ?_⟩
  · rw [newRegion_regions]
    by_cases hk : k' = k
    · subst hk; rw [hfresh] at h; cases h
    · simp [hk, h]
  · refine ⟨r', ?_, rfl, rfl, rfl⟩
    rw [newRegion_getElem?, if_pos (getElem?_lt hr')]
    exact hr'

theorem newRegion_registered (c : Catalog) (k : String) (r : Region)
    (hfresh : c.regions k = none) (hcode : r.Code = k) (h : Registered c) :
    Registered (newRegion c k r) := by
  refine ⟨fun k' p hk => ?_, fun p r' hr' => ?_⟩
  · rw [newRegion_regions] at hk
    by_cases hkk : k' = k
    · subst hkk
      simp only [if_true, Option.some.injEq] at hk
      subst hk
      exact ⟨r, by simp [newRegion_getElem?], hcode⟩
    · simp only [hkk, if_false] at hk
      obtain ⟨r', hr', hc⟩ := h.1 k' p hk
      exact ⟨r', by rw [newRegion_getElem?, if_pos (getElem?_lt hr')]; exact hr', hc⟩
  · rw [newRegion_getElem?] at hr'
    rw [newRegion_regions]
    by_cases hp : p < c.heap.length
    · simp only [hp, if_true] at hr'
      have hreg := h.2 p r' hr'
      have hne : r'.Code ≠ k := by
        intro he; rw [he, hfresh] at hreg; cases hreg
      simp [hne, hreg]
    · simp only [hp, if_false] at hr'
      by_cases hp' : p = c.heap.length
      · simp only [hp', if_true, Option.some.injEq] at hr'
        subst hr'
        simp [hcode, hp']
      · simp [hp'] at hr'

theorem newRegion_shaped (c : Catalog) (k : String) (r : Region)
    (hfresh : c.regions k = none) (hshape : Shape c.regions r) (h : Shaped c) :
    Shaped (newRegion c k r) := by
  have hm : ∀ b, (c.regions b).isSome = true → (newRegion c k r).regions b = c.regions b := by
    intro b hb
    rw [newRegion_regions]
    by_cases hbk : b = k
    · subst hbk; rw [hfresh] at hb; cases hb
    · simp [hbk]
  intro p r' hr'
  rw [newRegion_getElem?] at hr'
  by_cases hp : p < c.heap.length
  · simp only [hp, if_true] at hr'
    exact (h p r' hr').mono hm rfl rfl
  · simp only [hp, if_false] at hr'
    by_cases hp' : p = c.heap.length
    · simp only [hp', if_true, Option.some.injEq] at hr'
      subst hr'
      exact hshape.mono hm rfl rfl
    · simp [hp'] at hr'

/-! ## The blocks of the load loop -/

theorem has_eq_false {V : Type} {m : GoMap V} {k : String} (h : ¬ m.has k = true) :
    m k = none := by
  unfold GoMap.has at h
  cases hk : m k with
  | none => rfl
  | some v => simp [hk] at h

theorem ensureCountry_grows (c : Catalog) (cc n : String) : Grows c (ensureCountry c cc n) := by
  unfold ensureCountry
  split
  · exact Grows.refl c
  · next h => exact newRegion_grows c cc _ (has_eq_false h)

theorem ensureCountry_registered (c : Catalog) (cc n : String) (h : Registered c) :
    Registered (ensureCountry c cc n) := by
  unfold ensureCountry
  split
  · exact h
  · next hh => exact newRegion_registered c cc _ (has_eq_false hh) rfl h

theorem ensureCountry_shaped (c : Catalog) (cc n : String) (h0 : hyphens cc = 0)
    (h : Shaped c) : Shaped (ensureCountry c cc n) := by
  unfold ensureCountry
  split
  · exact h
  · next hh => exact newRegion_shaped c cc _ (has_eq_false hh) (Or.inl ⟨h0, rfl⟩) h

theorem ensureCountry_has (c : Catalog) (cc n : String) :
    (ensureCountry c cc n).regions.has cc = true := by
  unfold ensureCountry
  split
  · next h => exact h
  · simp [GoMap.has, newRegion_regions]

theorem ensureChild_grows (c : Catalog) (code n parentCode : String) :
    Grows c (ensureChild c code n parentCode) := by
  unfold ensureChild
  split
  · exact Grows.refl c
  · next h => exact (newRegion_grows c code _ (has_eq_false h)).trans (addChild_grows _ _ _)

theorem ensureChild_registered (c : Catalog) (code n parentCode : String) (h : Registered c) :
    Registered (ensureChild c code n parentCode) := by
  unfold ensureChild
  split
  · exact h
  · next hh =>
    exact addChild_registered _ _ _ (newRegion_registered c code _ (has_eq_false hh) rfl h)

theorem ensureChild_shaped (c : Catalog) (code n parentCode a : String)
    (hcode : code = a ++ "-" ++ parentCode) (hpar : c.regions.has parentCode = true)
    (hl : (hyphens a = 0 ∧ hyphens parentCode = 0) ∨ hyphens parentCode = 1)
    (h : Shaped c) : Shaped (ensureChild c code n parentCode) := by
  unfold ensureChild
  split
  · exact h
  · next hh =>
    exact addChild_shaped _ _ _
      (newRegion_shaped c code _ (has_eq_false hh) (Or.inr ⟨a, parentCode, hcode, rfl, hpar, hl⟩) h)

theorem ensureChild_has (c : Catalog) (code n parentCode : String) :
    (ensureChild c code n parentCode).regions.has code = true := by
  unfold ensureChild
  split
  · next h => exact h
  · simp [GoMap.has, addChild_regions, newRegion_regions]

theorem Grows.has {c c' : Catalog} (h : Grows c c') {k : String} (hk : c.regions.has k = true) :
    c'.regions.has k = true := by
  unfold GoMap.has at hk ⊢
  cases hp : c.regions k with
  | none => simp [hp] at hk
  | some p => simp [h.1 k p hp]

theorem loadRecord_grows (c : Catalog) (rec : Record) : Grows c (loadRecord c rec) := by
  unfold loadRecord
  exact ((ensureCountry_grows _ _ _).trans (ensureChild_grows _ _ _ _)).trans
    (ensureChild_grows _ _ _ _)

theorem loadRecord_registered (c : Catalog) (rec : Record) (h : Registered c) :
    Registered (loadRecord c rec) := by
  unfold loadRecord
  exact ensureChild_registered _ _ _ _
    (ensureChild_registered _ _ _ _ (ensureCountry_registered _ _ _ h))

theorem loadRecord_shaped (c : Catalog) (rec : Record)
    (hs : hyphens rec.stateCode = 0) (hc : hyphens rec.countryCode = 0) (h : Shaped c) :
    Shaped (loadRecord c rec) := by
  unfold loadRecord
  refine ensureChild_shaped _ _ _ _ rec.cityCode rfl (ensureChild_has _ _ _ _)
    (Or.inr (by rw [hyphens_join, hs, hc])) ?_
  exact ensureChild_shaped _ _ _ _ rec.stateCode rfl (ensureCountry_has _ _ _)
    (Or.inl ⟨hs, hc⟩) (ensureCountry_shaped _ _ _ hc h)

/-- After a row is processed its three codes are keys of the map. -/
theorem loadRecord_has (c : Catalog) (rec : Record) :
    (loadRecord c rec).regions.has rec.countryCode = true ∧
    (loadRecord c rec).regions.has (rec.stateCode ++ "-" ++ rec.countryCode) = true ∧
    (loadRecord c rec).regions.has
      (rec.cityCode ++ "-" ++ (rec.stateCode ++ "-" ++ rec.countryCode)) = true := by
  unfold loadRecord
  refine ⟨?_, ?_, ?_⟩
  · exact ((ensureChild_grows _ _ _ _).trans (ensureChild_grows _ _ _ _)).has
      (ensureCountry_has _ _ _)
  · exact (ensureChild_grows _ _ _ _).has (ensureChild_has _ _ _ _)
  · exact ensureChild_has _ _ _ _

theorem load_grows (records : List Record) :
    ∀ c : Catalog, Grows c (LoadRegionsFromCSV c records) := by
  induction records with
  | nil => intro c; exact Grows.refl c
  | cons rec rs ih =>
    intro c
    exact (loadRecord_grows c rec).trans (ih (loadRecord c rec))

theorem load_registered (records : List Record) :
    ∀ c : Catalog, Registered c → Registered (LoadRegionsFromCSV c records) := by
  induction records with
  | nil => intro c h; exact h
  | cons rec rs ih =>
    intro c h
    exact ih (loadRecord c rec) (loadRecord_registered c rec h)

theorem load_shaped (records : List Record) :
    ∀ c : Catalog, HyphenFree records → Shaped c → Shaped (LoadRegionsFromCSV c records) := by
  induction records with
  | nil => intro c _ h; exact h
  | cons rec rs ih =>
    intro c hf h
    have h0 := hf rec (by simp)
    exact ih (loadRecord c rec) (fun r hr => hf r (by simp [hr]))
      (loadRecord_shaped c rec h0.1 h0.2 h)

theorem load_has (records : List Record) :
    ∀ (c : Catalog) (rec : Record), rec ∈ records →
      (LoadRegionsFromCSV c records).regions.has rec.countryCode = true ∧
      (LoadRegionsFromCSV c records).regions.has (rec.stateCode ++ "-" ++ rec.countryCode) = true ∧
      (LoadRegionsFromCSV c records).regions.has
        (rec.cityCode ++ "-" ++ (rec.stateCode ++ "-" ++ rec.countryCode)) = true := by
  induction records with
  | nil => intro c rec h; cases h
  | cons r0 rs ih =>
    intro c rec h
    rcases List.mem_cons.1 h with rfl | h'
    · obtain ⟨h1, h2, h3⟩ := loadRecord_has c rec
      have hg := load_grows rs (loadRecord c rec)
      exact ⟨hg.has h1, hg.has h2, hg.has h3⟩
    · exact ih (loadRecord c r0) rec h'

theorem empty_registered : Registered Catalog.empty := by
  refine ⟨fun k p h => ?_, fun p r h => ?_⟩
  · simp [Catalog.empty, GoMap.empty] at h
  · simp [Catalog.empty] at h

theorem empty_shaped : Shaped Catalog.empty :=
  fun p r h => by simp [Catalog.empty] at h

/-! ## Claims on SetPermissions -/

/-- C4: exclude wins.  Over a catalog built by loading rows, for a distributor in
any prior state, a code that occurs in both lists of one `SetPermissions` call is
denied by `HasPermission` after the call. -/
theorem C4_exclude_wins (records : List Record) (g : Registry) (d : Ptr) (dist : Distributor)
    (incl excl : List String) (code : String) (fuel : Nat)
    (hd : g.heap[d]? = some dist) (_hincl : code ∈ incl) (hexcl : code ∈ excl) :
    HasPermission (LoadRegionsFromCSV Catalog.empty records)
      (SetPermissions (LoadRegionsFromCSV Catalog.empty records) g d incl excl)
      (fuel + 2) d code = some false := by
  have hreg := load_registered records Catalog.empty empty_registered
  rw [HasPermission]
  cases hp : (LoadRegionsFromCSV Catalog.empty records).regions code with
  | none => rfl
  | some p =>
    obtain ⟨r, hr, hcode⟩ := hreg.1 code p hp
    have hhas : (LoadRegionsFromCSV Catalog.empty records).regions.has code = true := by
      simp [GoMap.has, hp]
    have hex := (setPermissionsOn_spec (LoadRegionsFromCSV Catalog.empty records)
      dist incl excl).2.1 code
    simp only [hexcl, hhas, decide_True, Bool.and_self, Bool.or_true] at hex
    simp only [SetPermissions_get _ g d dist incl excl hd]
    rw [walk]
    simp only [hr, hcode, hex, if_true]

/-- Witness of C4: IN is in both lists of the call. -/
theorem C4_exclude_wins_witness :
    HasPermission catalogBLR
      (SetPermissions catalogBLR (AddDistributor Registry.empty "D1" none).1 0
        ["IN", "KA-IN"] ["BLR-KA-IN", "IN"])
      2 0 "IN" = some false :=
  C4_exclude_wins
    [{ cityCode := "BLR", stateCode := "KA", countryCode := "IN",
       cityName := "Bangalore", stateName := "Karnataka", countryName := "India" }]
    (AddDistributor Registry.empty "D1" none).1 0
    { Name := "D1", Includes := GoMap.empty, Excludes := GoMap.empty, Parent := none }
    ["IN", "KA-IN"] ["BLR-KA-IN", "IN"] "IN" 0 rfl (by simp) (by simp)

/-- C5: after `d.SetPermissions(include, exclude)` the receiver has
`Excludes' = Excludes ∪ known(exclude)` and
`Includes' = (Includes ∪ known(include)) \ known(exclude)`, where `known` keeps
the codes that are keys of the catalog; name and parent are untouched.  Unknown
codes change nothing wherever they stand in the lists, and a call with unknown
codes only leaves both sets as they were. -/
theorem C5_setPermissions_sets (c : Catalog) (g : Registry) (d : Ptr) (dist : Distributor)
    (incl excl : List String) (hd : g.heap[d]? = some dist) :
    ∃ dist', (SetPermissions c g d incl excl).heap[d]? = some dist' ∧
      (∀ k, dist'.Excludes.has k =
        (dist.Excludes.has k || (decide (k ∈ excl) && c.regions.has k))) ∧
      (∀ k, dist'.Includes.has k =
        ((dist.Includes.has k || (decide (k ∈ incl) && c.regions.has k)) &&
          !(decide (k ∈ excl) && c.regions.has k))) ∧
      dist'.Name = dist.Name ∧ dist'.Parent = dist.Parent ∧
      ((∀ k ∈ incl, c.regions.has k = false) → (∀ k ∈ excl, c.regions.has k = false) →
        dist'.Includes = dist.Includes ∧ dist'.Excludes = dist.Excludes) := by
  obtain ⟨h1, h2, h3, h4⟩ := setPermissionsOn_spec c dist incl excl
  refine ⟨_, SetPermissions_get c g d dist incl excl hd, h2, h1, h3, h4, ?_⟩
  intro hi he
  constructor
  · apply GoMap.ext_has
    intro k
    rw [h1 k]
    by_cases hki : k ∈ incl <;> by_cases hke : k ∈ excl <;>
      simp [hki, hke, hi k, he k]
  · apply GoMap.ext_has
    intro k
    rw [h2 k]
    by_cases hke : k ∈ excl <;> simp [hke, he k]

/-- Witness of C5: D1 after `SetPermissions(["IN", "ZZ"], ["KA-IN"])`. -/
theorem C5_setPermissions_sets_witness :
    ∃ dist', (SetPermissions catalogBLR (AddDistributor Registry.empty "D1" none).1 0
        ["IN", "ZZ"] ["KA-IN"]).heap[0]? = some dist' ∧
      (∀ k, dist'.Excludes.has k =
        ((GoMap.empty : GoMap Unit).has k ||
          (decide (k ∈ ["KA-IN"]) && catalogBLR.regions.has k))) ∧
      (∀ k, dist'.Includes.has k =
        (((GoMap.empty : GoMap Unit).has k ||
            (decide (k ∈ ["IN", "ZZ"]) && catalogBLR.regions.has k)) &&
          !(decide (k ∈ ["KA-IN"]) && catalogBLR.regions.has k))) ∧
      dist'.Name = "D1" ∧ dist'.Parent = none ∧
      ((∀ k ∈ ["IN", "ZZ"], catalogBLR.regions.has k = false) →
        (∀ k ∈ ["KA-IN"], catalogBLR.regions.has k = false) →
        dist'.Includes = GoMap.empty ∧ dist'.Excludes = GoMap.empty) :=
  C5_setPermissions_sets catalogBLR (AddDistributor Registry.empty "D1" none).1 0
    { Name := "D1", Includes := GoMap.empty, Excludes := GoMap.empty, Parent := none }
    ["IN", "ZZ"] ["KA-IN"] rfl

/-- C6, evaluated at the failing input: after `AddDistributor("D1", nil)`,
`SetPermissions([], ["IN"])` and then `SetPermissions(["IN"], [])` over the
catalog holding IN, the code IN is in both `Includes` and `Excludes` of D1. -/
theorem C6_include_after_exclude_overlaps :
    ∃ dist,
      (SetPermissions catalogBLR
        (SetPermissions catalogBLR (AddDistributor Registry.empty "D1" none).1
          (AddDistributor Registry.empty "D1" none).2 [] ["IN"])
        (AddDistributor Registry.empty "D1" none).2 ["IN"] []).heap[0]? = some dist ∧
      dist.Includes.has "IN" = true ∧ dist.Excludes.has "IN" = true :=
  ⟨_, rfl, rfl, rfl⟩

/-- C7: the end-to-end scenario.  After loading the row BLR, KA, IN into an empty
catalog, adding D1 without parent and calling `SetPermissions(["IN"], ["KA-IN"])`,
`HasPermission` returns true for IN, false for KA-IN and false for BLR-KA-IN, for
every fuel from 4 on. -/
theorem C7_end_to_end (fuel : Nat) :
    HasPermission catalogBLR registryD1 (fuel + 4)
      (AddDistributor Registry.empty "D1" none).2 "IN" = some true ∧
    HasPermission catalogBLR registryD1 (fuel + 4)
      (AddDistributor Registry.empty "D1" none).2 "KA-IN" = some false ∧
    HasPermission catalogBLR registryD1 (fuel + 4)
      (AddDistributor Registry.empty "D1" none).2 "BLR-KA-IN" = some false :=
  ⟨HasPermission_mono_le _ _ _ 4 _ _ _ (by omega) rfl,
   HasPermission_mono_le _ _ _ 4 _ _ _ (by omega) rfl,
   HasPermission_mono_le _ _ _ 4 _ _ _ (by omega) rfl⟩

/-! ## Splitting a composite code at a hyphen -/

theorem list_join_inj {α : Type} [DecidableEq α] (x : α) (a a' b b' : List α)
    (hb : b.count x = b'.count x) (h : a ++ x :: b = a' ++ x :: b') : a = a' ∧ b = b' := by
  rcases List.append_eq_append_iff.1 h with ⟨t, h1, h2⟩ | ⟨t, h1, h2⟩
  · cases t with
    | nil =>
      simp only [List.append_nil, List.nil_append, List.cons.injEq, true_and] at h1 h2
      exact ⟨h1.symm, h2⟩
    | cons y t =>
      simp only [List.cons_append, List.cons.injEq] at h2
      have := congrArg (List.count x) h2.2
      simp [List.count_append] at this
      omega
  · cases t with
    | nil =>
      simp only [List.append_nil, List.nil_append, List.cons.injEq, true_and] at h1 h2
      exact ⟨h1, h2.symm⟩
    | cons y t =>
      simp only [List.cons_append, List.cons.injEq] at h2
      have := congrArg (List.count x) h2.2
      simp [List.count_append] at this
      omega

/-- A code `a-b` determines `a` and `b` once the number of hyphens of `b` is known. -/
theorem join_inj (a b a' b' : String) (hb : hyphens b = hyphens b')
    (h : a ++ "-" ++ b = a' ++ "-" ++ b') : a = a' ∧ b = b' := by
  have hd := congrArg String.data h
  simp only [String.data_append] at hd
  rw [List.append_assoc, List.append_assoc] at hd
  obtain ⟨h1, h2⟩ := list_join_inj '-' a.data a'.data b.data b'.data hb hd
  exact ⟨String.ext h1, String.ext h2⟩

/-! ## Ancestor sequences in a shaped catalog -/

/-- A key without hyphen holds a country: an object with that code and no parent. -/
theorem country_of_key (c : Catalog) (hr : Registered c) (hs : Shaped c) (k : String) (p : Ptr)
    (hk : c.regions k = some p) (h0 : hyphens k = 0) :
    ∃ r, c.heap[p]? = some r ∧ r.Code = k ∧ r.Parent = none := by
  obtain ⟨r, hp, hc⟩ := hr.1 k p hk
  refine ⟨r, hp, hc, ?_⟩
  rcases hs p r hp with ⟨_, hn⟩ | ⟨a, b, hab, _, _, _⟩
  · exact hn
  · rw [hc] at hab
    rw [hab, hyphens_join] at h0
    omega

/-- A key with one hyphen holds a state: its parent is the country named after
the hyphen. -/
theorem state_of_key (c : Catalog) (hr : Registered c) (hs : Shaped c) (k : String) (p : Ptr)
    (hk : c.regions k = some p) (h1 : hyphens k = 1) :
    ∃ r q r0 a, c.heap[p]? = some r ∧ r.Code = k ∧ r.Parent = some q ∧
      c.heap[q]? = some r0 ∧ r0.Parent = none ∧ hyphens r0.Code = 0 ∧
      k = a ++ "-" ++ r0.Code := by
  obtain ⟨r, hp, hc⟩ := hr.1 k p hk
  rcases hs p r hp with ⟨h0, _⟩ | ⟨a, b, hab, hpar, hsome, _⟩
  · rw [hc] at h0; omega
  · rw [hc] at hab
    have hb0 : hyphens b = 0 := by
      rw [hab, hyphens_join] at h1; omega
    cases hq : c.regions b with
    | none => simp [hq] at hsome
    | some q =>
      obtain ⟨r0, hq0, hc0, hn0⟩ := country_of_key c hr hs b q hq hb0
      exact ⟨r, q, r0, a, hp, hc, by rw [hpar, hq], hq0, hn0, by rw [hc0]; exact hb0,
        by rw [hc0]; exact hab⟩

/-- A key with two or more hyphens holds a city: its parent is the state named
after the first hyphen that leaves one hyphen behind. -/
theorem city_of_key (c : Catalog) (hr : Registered c) (hs : Shaped c) (k : String) (p : Ptr)
    (hk : c.regions k = some p) (h2 : 2 ≤ hyphens k) :
    ∃ r q r1 q0 r0 a a', c.heap[p]? = some r ∧ r.Code = k ∧ r.Parent = some q ∧
      c.heap[q]? = some r1 ∧ r1.Parent = some q0 ∧ hyphens r1.Code = 1 ∧
      c.heap[q0]? = some r0 ∧ r0.Parent = none ∧ hyphens r0.Code = 0 ∧
      k = a ++ "-" ++ r1.Code ∧ r1.Code = a' ++ "-" ++ r0.Code := by
  obtain ⟨r, hp, hc⟩ := hr.1 k p hk
  rcases hs p r hp with ⟨h0, _⟩ | ⟨a, b, hab, hpar, hsome, hl⟩
  · rw [hc] at h0; omega
  · rw [hc] at hab
    have hb1 : hyphens b = 1 := by
      rcases hl with ⟨ha0, hb0⟩ | hb1
      · rw [hab, hyphens_join] at h2; omega
      · exact hb1
    cases hq : c.regions b with
    | none => simp [hq] at hsome
    | some q =>
      obtain ⟨r1, q0, r0, a', hq1, hc1, hp1, hq0, hn0, hh0, hab'⟩ :=
        state_of_key c hr hs b q hq hb1
      exact ⟨r, q, r1, q0, r0, a, a', hp, hc, by rw [hpar, hq], hq1, hp1,
        by rw [hc1]; exact hb1, hq0, hn0, hh0, by rw [hc1]; exact hab,
        by rw [hc1]; exact hab'⟩

theorem ancestorsOf_one (c : Catalog) (p : Ptr) (r : Region) (fuel : Nat)
    (hp : c.heap[p]? = some r) (hn : r.Parent = none) :
    ancestorsOf c (fuel + 1) (some p) = some [r] := by
  rw [ancestorsOf]
  simp only [hp, hn]
  cases fuel <;> simp [ancestorsOf]

theorem ancestorsOf_step (c : Catalog) (p q : Ptr) (r : Region) (fuel : Nat) (l : List Region)
    (hp : c.heap[p]? = some r) (hq : r.Parent = some q)
    (hl : ancestorsOf c fuel (some q) = some l) :
    ancestorsOf c (fuel + 1) (some p) = some (r :: l) := by
  rw [ancestorsOf]
  simp only [hp, hq, hl, Option.map_some']

/-- In a shaped catalog the ancestor sequence of the region under key `k` has one
region more than `k` has hyphens, and three for a city. -/
theorem ancestorsOf_key (c : Catalog) (hr : Registered c) (hs : Shaped c) (k : String) (p : Ptr)
    (hk : c.regions k = some p) (fuel : Nat) :
    ∃ l, ancestorsOf c (fuel + 3) (some p) = some l ∧ l.length = min (hyphens k + 1) 3 := by
  rcases Nat.lt_or_ge (hyphens k) 1 with h0 | h1
  · obtain ⟨r, hp, _, hn⟩ := country_of_key c hr hs k p hk (by omega)
    exact ⟨[r], ancestorsOf_one c p r (fuel + 2) hp hn, by simp; omega⟩
  · rcases Nat.lt_or_ge (hyphens k) 2 with h1' | h2
    · obtain ⟨r, q, r0, _, hp, _, hpar, hq, hn, _, _⟩ :=
        state_of_key c hr hs k p hk (by omega)
      exact ⟨[r, r0],
        ancestorsOf_step c p q r (fuel + 2) [r0] hp hpar (ancestorsOf_one c q r0 (fuel + 1) hq hn),
        by simp; omega⟩
    · obtain ⟨r, q, r1, q0, r0, _, _, hp, _, hpar, hq, hpar1, _, hq0, hn, _, _, _⟩ :=
        city_of_key c hr hs k p hk h2
      exact ⟨[r, r1, r0],
        ancestorsOf_step c p q r (fuel + 2) [r1, r0] hp hpar
          (ancestorsOf_step c q q0 r1 (fuel + 1) [r0] hq hpar1
            (ancestorsOf_one c q0 r0 fuel hq0 hn)),
        by simp; omega⟩

/-! ## Claims on the loaded hierarchy -/

/-- The single row BLR, KA, IN has no hyphen in its state and country codes. -/
theorem hyphenFree_rowBLR :
    HyphenFree
      [{ cityCode := "BLR", stateCode := "KA", countryCode := "IN",
         cityName := "Bangalore", stateName := "Karnataka", countryName := "India" }] := by
  intro rec h
  rw [List.mem_singleton] at h
  subst h
  exact ⟨by decide, by decide⟩

/-- C9 as stated fails: in the catalog of `recordsCollide` the second row has
state code KA and country code IN, and the region found under KA-IN is the
country created by the first row: its ancestor sequence has one region, not two. -/
theorem C9_chain_lengths_counterexample :
    (ancestorsOf catalogCollide 5 (catalogCollide.regions ("KA" ++ "-" ++ "IN"))).map
      List.length = some 1 := by
  decide

/-- C9, amended: for every row of a list loaded into an empty catalog the
lookups of its country code, full state code and full city code succeed; and when
no state code and no country code of the list contains a hyphen, the ancestor
sequences of the regions found have exactly 1, 2 and 3 regions. -/
theorem C9_chain_lengths (records : List Record) (rec : Record) (hrec : rec ∈ records) :
    ((LoadRegionsFromCSV Catalog.empty records).regions.has rec.countryCode = true ∧
     (LoadRegionsFromCSV Catalog.empty records).regions.has
        (rec.stateCode ++ "-" ++ rec.countryCode) = true ∧
     (LoadRegionsFromCSV Catalog.empty records).regions.has
        (rec.cityCode ++ "-" ++ (rec.stateCode ++ "-" ++ rec.countryCode)) = true) ∧
    (HyphenFree records → ∀ fuel : Nat,
      (∃ l, ancestorsOf (LoadRegionsFromCSV Catalog.empty records) (fuel + 3)
          ((LoadRegionsFromCSV Catalog.empty records).regions rec.countryCode) = some l ∧
        l.length = 1) ∧
      (∃ l, ancestorsOf (LoadRegionsFromCSV Catalog.empty records) (fuel + 3)
          ((LoadRegionsFromCSV Catalog.empty records).regions
            (rec.stateCode ++ "-" ++ rec.countryCode)) = some l ∧
        l.length = 2) ∧
      (∃ l, ancestorsOf (LoadRegionsFromCSV Catalog.empty records) (fuel + 3)
          ((LoadRegionsFromCSV Catalog.empty records).regions
            (rec.cityCode ++ "-" ++ (rec.stateCode ++ "-" ++ rec.countryCode))) = some l ∧
        l.length = 3)) := by
  have hhas := load_has records Catalog.empty rec hrec
  refine ⟨hhas, fun hf fuel => ?_⟩
  have hr := load_registered records Catalog.empty empty_registered
  have hs := load_shaped records Catalog.empty hf empty_shaped
  generalize LoadRegionsFromCSV Catalog.empty records = c at hr hs hhas ⊢
  obtain ⟨h0, h1, h2⟩ := hhas
  have hsc := (hf rec hrec).1
  have hcc := (hf rec hrec).2
  have key : ∀ k : String, c.regions.has k = true →
      ∃ l, ancestorsOf c (fuel + 3) (c.regions k) = some l ∧
        l.length = min (hyphens k + 1) 3 := by
    intro k hk
    cases hp : c.regions k with
    | none => simp [GoMap.has, hp] at hk
    | some p => exact ancestorsOf_key c hr hs k p hp fuel
  refine ⟨?_, ?_, ?_⟩
  · obtain ⟨l, hl, hlen⟩ := key _ h0
    exact ⟨l, hl, by rw [hlen, hcc]; rfl⟩
  · obtain ⟨l, hl, hlen⟩ := key _ h1
    exact ⟨l, hl, by rw [hlen, hyphens_join, hsc, hcc]; rfl⟩
  · obtain ⟨l, hl, hlen⟩ := key _ h2
    refine ⟨l, hl, ?_⟩
    rw [hlen, hyphens_join, hyphens_join, hsc, hcc]
    omega

/-- Witness of the amended C9: the row BLR, KA, IN; the city BLR-KA-IN has an
ancestor sequence of three regions. -/
theorem C9_chain_lengths_witness :
    ∃ l, ancestorsOf catalogBLR 3 (catalogBLR.regions "BLR-KA-IN") = some l ∧ l.length = 3 :=
  ((C9_chain_lengths
    [{ cityCode := "BLR", stateCode := "KA", countryCode := "IN",
       cityName := "Bangalore", stateName := "Karnataka", countryName := "India" }]
    { cityCode := "BLR", stateCode := "KA", countryCode := "IN",
      cityName := "Bangalore", stateName := "Karnataka", countryName := "India" }
    (List.mem_singleton.2 rfl)).2 hyphenFree_rowBLR 0).2.2

/-- C10 as stated fails: in the catalog of `recordsDeep` the second row takes the
city a-b-c of the first row as its country, and the region x-y-a-b-c has an
ancestor sequence of five regions. -/
theorem C10_depth_counterexample :
    (ancestorsOf (LoadRegionsFromCSV Catalog.empty recordsDeep) 10
      ((LoadRegionsFromCSV Catalog.empty recordsDeep).regions "x-y-a-b-c")).map
      List.length = some 5 := by
  decide

/-- C10, amended: when no state code and no country code of the loaded rows
contains a hyphen, the parent chain of every region of the catalog (every object
of the heap, every value of the map) ends at a region without parent and the
ancestor sequence has at most three regions, that is at most two steps. -/
theorem C10_depth (records : List Record) (hf : HyphenFree records) (fuel : Nat) :
    (∀ (p : Ptr) (r : Region), (LoadRegionsFromCSV Catalog.empty records).heap[p]? = some r →
      ∃ l, ancestorsOf (LoadRegionsFromCSV Catalog.empty records) (fuel + 3) (some p) = some l ∧
        1 ≤ l.length ∧ l.length ≤ 3) ∧
    (∀ (k : String) (p : Ptr), (LoadRegionsFromCSV Catalog.empty records).regions k = some p →
      ∃ l, ancestorsOf (LoadRegionsFromCSV Catalog.empty records) (fuel + 3) (some p) = some l ∧
        1 ≤ l.length ∧ l.length ≤ 3) := by
  have hr := load_registered records Catalog.empty empty_registered
  have hs := load_shaped records Catalog.empty hf empty_shaped
  generalize LoadRegionsFromCSV Catalog.empty records = c at hr hs ⊢
  have key : ∀ (k : String) (p : Ptr), c.regions k = some p →
      ∃ l, ancestorsOf c (fuel + 3) (some p) = some l ∧ 1 ≤ l.length ∧ l.length ≤ 3 := by
    intro k p hk
    obtain ⟨l, hl, hlen⟩ := ancestorsOf_key c hr hs k p hk fuel
    exact ⟨l, hl, by omega, by omega⟩
  exact ⟨fun p r hp => key r.Code p (hr.2 p r hp), key⟩

/-- Witness of the amended C10: the city object of the catalog of the row BLR,
KA, IN. -/
theorem C10_depth_witness :
    ∃ l, ancestorsOf catalogBLR 3 (some 2) = some l ∧ 1 ≤ l.length ∧ l.length ≤ 3 :=
  (C10_depth
    [{ cityCode := "BLR", stateCode := "KA", countryCode := "IN",
       cityName := "Bangalore", stateName := "Karnataka", countryName := "India" }]
    hyphenFree_rowBLR 0).1 2
    { Name := "Bangalore", Code := "BLR-KA-IN", Parent := some 1, Children := GoMap.empty } rfl

/-! ## Reloading and the frame of a load -/

theorem ensureCountry_noop (c : Catalog) (cc n : String) (h : c.regions.has cc = true) :
    ensureCountry c cc n = c := by
  unfold ensureCountry
  rw [if_pos h]

theorem ensureChild_noop (c : Catalog) (code n parentCode : String)
    (h : c.regions.has code = true) : ensureChild c code n parentCode = c := by
  unfold ensureChild
  rw [if_pos h]

/-- A row whose three codes are keys already leaves the catalog as it is. -/
theorem loadRecord_noop (c : Catalog) (rec : Record)
    (h0 : c.regions.has rec.countryCode = true)
    (h1 : c.regions.has (rec.stateCode ++ "-" ++ rec.countryCode) = true)
    (h2 : c.regions.has
      (rec.cityCode ++ "-" ++ (rec.stateCode ++ "-" ++ rec.countryCode)) = true) :
    loadRecord c rec = c := by
  unfold loadRecord
  simp only
  rw [ensureCountry_noop c _ _ h0, ensureChild_noop c _ _ _ h1, ensureChild_noop c _ _ _ h2]

theorem load_noop (records : List Record) :
    ∀ c : Catalog,
      (∀ rec ∈ records,
        c.regions.has rec.countryCode = true ∧
        c.regions.has (rec.stateCode ++ "-" ++ rec.countryCode) = true ∧
        c.regions.has
          (rec.cityCode ++ "-" ++ (rec.stateCode ++ "-" ++ rec.countryCode)) = true) →
      LoadRegionsFromCSV c records = c := by
  induction records with
  | nil => intro c _; rfl
  | cons rec rs ih =>
    intro c h
    obtain ⟨h0, h1, h2⟩ := h rec (by simp)
    show LoadRegionsFromCSV (loadRecord c rec) rs = c
    rw [loadRecord_noop c rec h0 h1 h2]
    exact ih c (fun r hr => h r (by simp [hr]))

/-- C11: idempotent load.  For every starting catalog and every list of rows,
loading the rows a second time returns the very catalog of the first load: the
same heap of region objects (names, codes, parents, children sets) and the same
map `regions`; the second load allocates nothing. -/
theorem C11_load_twice (c : Catalog) (records : List Record) :
    LoadRegionsFromCSV (LoadRegionsFromCSV c records) records = LoadRegionsFromCSV c records :=
  load_noop records _ (fun rec h => load_has records c rec h)

theorem keepsChildren_refl (c : Catalog) : KeepsChildren c c :=
  fun _ r h => ⟨r, h, fun _ hk => hk⟩

theorem keepsChildren_trans {c c' c'' : Catalog} (h : KeepsChildren c c')
    (h' : KeepsChildren c' c'') : KeepsChildren c c'' := by
  intro p r hr
  obtain ⟨r', hr', e⟩ := h p r hr
  obtain ⟨r'', hr'', e'⟩ := h' p r' hr'
  exact ⟨r'', hr'', fun k hk => e' k (e k hk)⟩

theorem newRegion_keepsChildren (c : Catalog) (k : String) (r : Region) :
    KeepsChildren c (newRegion c k r) := by
  intro p r' hr'
  refine ⟨r', ?_, fun _ hk => hk⟩
  rw [newRegion_getElem?, if_pos (getElem?_lt hr')]
  exact hr'

theorem addChild_keepsChildren (c : Catalog) (a b : String) :
    KeepsChildren c (addChild c a b) := by
  intro p r hr
  unfold addChild
  cases ha : c.regions a with
  | none => exact ⟨r, hr, fun _ hk => hk⟩
  | some pa =>
    cases hb : c.regions b with
    | none => exact ⟨r, hr, fun _ hk => hk⟩
    | some q =>
      by_cases hp : p = pa
      · subst hp
        refine ⟨{ r with Children := r.Children.set b q }, by simp [modifyAt_getElem?, hr],
          fun k hk => ?_⟩
        rw [GoMap.has_set, hk, Bool.or_true]
      · exact ⟨r, by simp [modifyAt_getElem?, hp, hr], fun _ hk => hk⟩

theorem ensureCountry_keepsChildren (c : Catalog) (cc n : String) :
    KeepsChildren c (ensureCountry c cc n) := by
  unfold ensureCountry
  split
  · exact keepsChildren_refl c
  · exact newRegion_keepsChildren c cc _

theorem ensureChild_keepsChildren (c : Catalog) (code n parentCode : String) :
    KeepsChildren c (ensureChild c code n parentCode) := by
  unfold ensureChild
  split
  · exact keepsChildren_refl c
  · exact keepsChildren_trans (newRegion_keepsChildren c code _) (addChild_keepsChildren _ _ _)

theorem loadRecord_keepsChildren (c : Catalog) (rec : Record) :
    KeepsChildren c (loadRecord c rec) := by
  unfold loadRecord
  exact keepsChildren_trans
    (keepsChildren_trans (ensureCountry_keepsChildren _ _ _) (ensureChild_keepsChildren _ _ _ _))
    (ensureChild_keepsChildren _ _ _ _)

theorem load_keepsChildren (records : List Record) :
    ∀ c : Catalog, KeepsChildren c (LoadRegionsFromCSV c records) := by
  induction records with
  | nil => intro c; exact keepsChildren_refl c
  | cons rec rs ih =>
    intro c
    exact keepsChildren_trans (loadRecord_keepsChildren c rec) (ih (loadRecord c rec))

/-- C12: a load never replaces a region.  For every catalog and every list of
rows, a code that is a key before the load is a key after it and holds the same
object (same address), with the same code, name and parent; the keys of its
children set are all kept, so that set can only grow.  The rows are arbitrary:
they may derive the same code with another name or at another level. -/
theorem C12_load_keeps_regions (c : Catalog) (records : List Record) (k : String) (p : Ptr)
    (r : Region) (hk : c.regions k = some p) (hp : c.heap[p]? = some r) :
    (LoadRegionsFromCSV c records).regions k = some p ∧
    ∃ r', (LoadRegionsFromCSV c records).heap[p]? = some r' ∧
      r'.Code = r.Code ∧ r'.Name = r.Name ∧ r'.Parent = r.Parent ∧
      ∀ child, r.Children.has child = true → r'.Children.has child = true := by
  have hg := load_grows records c
  obtain ⟨r', hr', e1, e2, e3⟩ := hg.2 p r hp
  obtain ⟨r'', hr'', e⟩ := load_keepsChildren records c p r hp
  rw [hr'] at hr''
  cases hr''
  exact ⟨hg.1 k p hk, r', hr', e1, e3, e2, e⟩

/-- Witness of C12: over the catalog of the row BLR, KA, IN, the row (x, KA, IN)
derives the codes IN and KA-IN again with the names Bharat and Other.  The region
under KA-IN stays at address 1 with its name Karnataka, its parent and its child
BLR-KA-IN. -/
theorem C12_load_keeps_regions_witness :
    (LoadRegionsFromCSV catalogBLR
      [{ cityCode := "x", stateCode := "KA", countryCode := "IN",
         cityName := "Xcity", stateName := "Other", countryName := "Bharat" }]).regions "KA-IN"
      = some 1 ∧
    ∃ r', (LoadRegionsFromCSV catalogBLR
      [{ cityCode := "x", stateCode := "KA", countryCode := "IN",
         cityName := "Xcity", stateName := "Other", countryName := "Bharat" }]).heap[1]?
        = some r' ∧
      r'.Code = "KA-IN" ∧ r'.Name = "Karnataka" ∧ r'.Parent = some 0 ∧
      ∀ child, ((GoMap.empty : GoMap Ptr).set "BLR-KA-IN" 2).has child = true →
        r'.Children.has child = true :=
  C12_load_keeps_regions catalogBLR
    [{ cityCode := "x", stateCode := "KA", countryCode := "IN",
       cityName := "Xcity", stateName := "Other", countryName := "Bharat" }]
    "KA-IN" 1
    { Name := "Karnataka", Code := "KA-IN", Parent := some 0,
      Children := (GoMap.empty : GoMap Ptr).set "BLR-KA-IN" 2 }
    rfl rfl

/-- C13: exact-match lookup and unique codes.  In a catalog loaded from the empty
one, the object stored under key `k` has `Code = k`, and two objects of the heap
with the same code are the same object. -/
theorem C13_lookup_exact_and_codes_unique (records : List Record) (k : String) (p : Ptr)
    (hk : (LoadRegionsFromCSV Catalog.empty records).regions k = some p) :
    (∃ r, (LoadRegionsFromCSV Catalog.empty records).heap[p]? = some r ∧ r.Code = k) ∧
    (∀ (p1 p2 : Ptr) (r1 r2 : Region),
      (LoadRegionsFromCSV Catalog.empty records).heap[p1]? = some r1 →
      (LoadRegionsFromCSV Catalog.empty records).heap[p2]? = some r2 →
      r1.Code = r2.Code → p1 = p2) := by
  have hr := load_registered records Catalog.empty empty_registered
  refine ⟨hr.1 k p hk, fun p1 p2 r1 r2 h1 h2 hc => ?_⟩
  have e1 := hr.2 p1 r1 h1
  have e2 := hr.2 p2 r2 h2
  rw [hc, e2] at e1
  exact (Option.some.inj e1).symm

/-- Witness of C13: the key KA-IN of the catalog of the row BLR, KA, IN. -/
theorem C13_lookup_exact_and_codes_unique_witness :
    ∃ r, catalogBLR.heap[1]? = some r ∧ r.Code = "KA-IN" :=
  (C13_lookup_exact_and_codes_unique
    [{ cityCode := "BLR", stateCode := "KA", countryCode := "IN",
       cityName := "Bangalore", stateName := "Karnataka", countryName := "India" }]
    "KA-IN" 1 rfl).1

/-- C14: `SetPermissions` is idempotent per call and additive on excludes.  A
second call with the same lists leaves `Includes` and `Excludes` of the receiver
as the first call left them, and every code excluded before a call is excluded
after it. -/
theorem C14_setPermissions_idempotent (c : Catalog) (g : Registry) (d : Ptr)
    (dist : Distributor) (incl excl : List String) (hd : g.heap[d]? = some dist) :
    ∃ d1 d2,
      (SetPermissions c g d incl excl).heap[d]? = some d1 ∧
      (SetPermissions c (SetPermissions c g d incl excl) d incl excl).heap[d]? = some d2 ∧
      d2.Includes = d1.Includes ∧ d2.Excludes = d1.Excludes ∧
      ∀ k, dist.Excludes.has k = true → d1.Excludes.has k = true := by
  have h1 := SetPermissions_get c g d dist incl excl hd
  have h2 := SetPermissions_get c _ d _ incl excl h1
  obtain ⟨i1, e1, _, _⟩ := setPermissionsOn_spec c dist incl excl
  obtain ⟨i2, e2, _, _⟩ := setPermissionsOn_spec c (setPermissionsOn c dist incl excl) incl excl
  refine ⟨_, _, h1, h2, ?_, ?_, ?_⟩
  · apply GoMap.ext_has
    intro k
    rw [i2 k, i1 k]
    cases dist.Includes.has k <;> cases decide (k ∈ incl) <;> cases decide (k ∈ excl) <;>
      cases c.regions.has k <;> rfl
  · apply GoMap.ext_has
    intro k
    rw [e2 k, e1 k]
    cases dist.Excludes.has k <;> cases decide (k ∈ excl) <;> cases c.regions.has k <;> rfl
  · intro k hk
    rw [e1 k, hk, Bool.true_or]

/-- Witness of C14: D1 with `SetPermissions(["IN"], ["KA-IN"])` called twice. -/
theorem C14_setPermissions_idempotent_witness :
    ∃ d1 d2,
      (SetPermissions catalogBLR (AddDistributor Registry.empty "D1" none).1 0
        ["IN"] ["KA-IN"]).heap[0]? = some d1 ∧
      (SetPermissions catalogBLR
        (SetPermissions catalogBLR (AddDistributor Registry.empty "D1" none).1 0
          ["IN"] ["KA-IN"]) 0 ["IN"] ["KA-IN"]).heap[0]? = some d2 ∧
      d2.Includes = d1.Includes ∧ d2.Excludes = d1.Excludes ∧
      ∀ k, (GoMap.empty : GoMap Unit).has k = true → d1.Excludes.has k = true :=
  C14_setPermissions_idempotent catalogBLR (AddDistributor Registry.empty "D1" none).1 0
    { Name := "D1", Includes := GoMap.empty, Excludes := GoMap.empty, Parent := none }
    ["IN"] ["KA-IN"] rfl

/-- C18: restricted mutual exclusivity.  If `Includes` and `Excludes` of the
receiver are disjoint before `SetPermissions(include, exclude)` and no code of
the include list is in `Excludes` already, they are disjoint after the call; in
particular after the first call on a distributor just made by `AddDistributor`. -/
theorem C18_disjoint_after_call (c : Catalog) (g : Registry) (d : Ptr) (dist : Distributor)
    (incl excl : List String) (hd : g.heap[d]? = some dist)
    (hdisj : ∀ k, ¬ (dist.Includes.has k = true ∧ dist.Excludes.has k = true))
    (hincl : ∀ k ∈ incl, dist.Excludes.has k = false) :
    (∃ dist', (SetPermissions c g d incl excl).heap[d]? = some dist' ∧
      ∀ k, ¬ (dist'.Includes.has k = true ∧ dist'.Excludes.has k = true)) ∧
    (∀ (g0 : Registry) (name : String) (parent : Option Ptr) (incl0 excl0 : List String),
      ∃ dist',
        (SetPermissions c (AddDistributor g0 name parent).1 (AddDistributor g0 name parent).2
          incl0 excl0).heap[(AddDistributor g0 name parent).2]? = some dist' ∧
        ∀ k, ¬ (dist'.Includes.has k = true ∧ dist'.Excludes.has k = true)) := by
  have main : ∀ (x : Distributor) (i e : List String),
      (∀ k, ¬ (x.Includes.has k = true ∧ x.Excludes.has k = true)) →
      (∀ k ∈ i, x.Excludes.has k = false) →
      ∀ k, ¬ ((setPermissionsOn c x i e).Includes.has k = true ∧
              (setPermissionsOn c x i e).Excludes.has k = true) := by
    intro x i e hx hi k
    obtain ⟨i1, e1, _, _⟩ := setPermissionsOn_spec c x i e
    rw [i1 k, e1 k]
    have h1 := hx k
    by_cases hki : k ∈ i
    · have h2 := hi k hki
      rw [h2]
      cases x.Includes.has k <;> cases decide (k ∈ i) <;> cases decide (k ∈ e) <;>
        cases c.regions.has k <;> simp
    · simp only [hki, decide_False, Bool.false_and, Bool.or_false]
      revert h1
      cases x.Includes.has k <;> cases x.Excludes.has k <;> cases decide (k ∈ e) <;>
        cases c.regions.has k <;> simp
  refine ⟨⟨_, SetPermissions_get c g d dist incl excl hd, main dist incl excl hdisj hincl⟩, ?_⟩
  intro g0 name parent incl0 excl0
  exact ⟨_, SetPermissions_get c _ _ _ incl0 excl0 (AddDistributor_get g0 name parent),
    main _ incl0 excl0 (fun k h => by simp [GoMap.has_empty] at h) (fun k _ => rfl)⟩

/-- Witness of C18: the first call on the fresh distributor D1. -/
theorem C18_disjoint_after_call_witness :
    ∃ dist', (SetPermissions catalogBLR (AddDistributor Registry.empty "D1" none).1 0
        ["IN", "KA-IN"] ["KA-IN"]).heap[0]? = some dist' ∧
      ∀ k, ¬ (dist'.Includes.has k = true ∧ dist'.Excludes.has k = true) :=
  (C18_disjoint_after_call catalogBLR (AddDistributor Registry.empty "D1" none).1 0
    { Name := "D1", Includes := GoMap.empty, Excludes := GoMap.empty, Parent := none }
    ["IN", "KA-IN"] ["KA-IN"] rfl
    (fun k h => by simp [GoMap.has_empty] at h) (fun _ _ => rfl)).1

/-! ## Termination of HasPermission -/

theorem getElem?_of_lt {α : Type} {l : List α} {p : Nat} (h : p < l.length) :
    ∃ a, l[p]? = some a :=
  ⟨l[p], List.getElem?_eq_getElem h⟩

theorem empty_parentBelow : ParentBelow Catalog.empty :=
  fun p r h => by simp [Catalog.empty] at h

theorem newRegion_parentBelow (c : Catalog) (k : String) (r : Region)
    (hpar : ∀ q, r.Parent = some q → q < c.heap.length) (h : ParentBelow c) :
    ParentBelow (newRegion c k r) := by
  intro p r' hr' q hq
  rw [newRegion_getElem?] at hr'
  by_cases hp : p < c.heap.length
  · simp only [hp, if_true] at hr'
    exact h p r' hr' q hq
  · simp only [hp, if_false] at hr'
    by_cases hp' : p = c.heap.length
    · simp only [hp', if_true, Option.some.injEq] at hr'
      subst hr'
      rw [hp']
      exact hpar q hq
    · simp [hp'] at hr'

theorem addChild_parentBelow (c : Catalog) (a b : String) (h : ParentBelow c) :
    ParentBelow (addChild c a b) := by
  intro p r hr q hq
  obtain ⟨f, hf, he⟩ := addChild_getElem? c a b p
  rw [he] at hr
  cases h0 : c.heap[p]? with
  | none => simp [h0] at hr
  | some r0 =>
    simp only [h0, Option.map_some', Option.some.injEq] at hr
    subst hr
    rw [(hf r0).2.1] at hq
    exact h p r0 h0 q hq

theorem ensureCountry_parentBelow (c : Catalog) (cc n : String) (h : ParentBelow c) :
    ParentBelow (ensureCountry c cc n) := by
  unfold ensureCountry
  split
  · exact h
  · exact newRegion_parentBelow c cc _ (fun q hq => by cases hq) h

theorem ensureChild_parentBelow (c : Catalog) (code n parentCode : String)
    (hr : Registered c) (h : ParentBelow c) :
    ParentBelow (ensureChild c code n parentCode) := by
  unfold ensureChild
  split
  · exact h
  · refine addChild_parentBelow _ _ _ (newRegion_parentBelow c code _ (fun q hq => ?_) h)
    obtain ⟨r, hq', _⟩ := hr.1 parentCode q hq
    exact getElem?_lt hq'

theorem loadRecord_parentBelow (c : Catalog) (rec : Record) (hr : Registered c)
    (h : ParentBelow c) : ParentBelow (loadRecord c rec) := by
  unfold loadRecord
  have h1 := ensureCountry_parentBelow c rec.countryCode rec.countryName h
  have r1 := ensureCountry_registered c rec.countryCode rec.countryName hr
  have h2 := ensureChild_parentBelow _ (rec.stateCode ++ "-" ++ rec.countryCode) rec.stateName
    rec.countryCode r1 h1
  have r2 := ensureChild_registered _ (rec.stateCode ++ "-" ++ rec.countryCode) rec.stateName
    rec.countryCode r1
  exact ensureChild_parentBelow _ _ _ _ r2 h2

theorem load_parentBelow (records : List Record) :
    ∀ c : Catalog, Registered c → ParentBelow c →
      ParentBelow (LoadRegionsFromCSV c records) := by
  induction records with
  | nil => intro c _ h; exact h
  | cons rec rs ih =>
    intro c hr h
    exact ih (loadRecord c rec) (loadRecord_registered c rec hr)
      (loadRecord_parentBelow c rec hr h)

/-- The loop of `HasPermission` ends when parents are allocated before their
children: from address `p` it needs at most `p + 1` iterations. -/
theorem walk_terminates (c : Catalog) (hb : ParentBelow c) (d : Distributor) :
    ∀ p : Nat, p < c.heap.length →
      ∃ x, ∀ fuel, p + 1 ≤ fuel → walk c d fuel (some p) = some x := by
  intro p
  induction p using Nat.strong_induction_on with
  | _ p ih =>
    intro hp
    obtain ⟨r, hr⟩ := getElem?_of_lt hp
    by_cases he : d.Excludes.has r.Code = true
    · refine ⟨some false, fun fuel hf => ?_⟩
      obtain ⟨f, rfl⟩ : ∃ f, fuel = f + 1 := ⟨fuel - 1, by omega⟩
      rw [walk]
      simp [hr, he]
    · by_cases hi : d.Includes.has r.Code = true
      · refine ⟨some true, fun fuel hf => ?_⟩
        obtain ⟨f, rfl⟩ : ∃ f, fuel = f + 1 := ⟨fuel - 1, by omega⟩
        rw [walk]
        simp [hr, he, hi]
      · cases hq : r.Parent with
        | none =>
          refine ⟨none, fun fuel hf => ?_⟩
          obtain ⟨f, rfl⟩ : ∃ f, fuel = f + 1 := ⟨fuel - 1, by omega⟩
          rw [walk]
          simp only [hr, he, hi, hq, if_false]
          cases f <;> simp [walk]
        | some q =>
          have hqp := hb p r hr q hq
          obtain ⟨x, hx⟩ := ih q hqp (by omega)
          refine ⟨x, fun fuel hf => ?_⟩
          obtain ⟨f, rfl⟩ : ∃ f, fuel = f + 1 := ⟨fuel - 1, by omega⟩
          rw [walk]
          simp only [hr, he, hi, hq, if_false]
          exact hx f (by omega)

theorem built_parentEarlier (g : Registry) (h : Built g) : ParentEarlier g := by
  induction h with
  | start => intro d dist hd; simp [Registry.empty] at hd
  | add g name parent _ hpar ih =>
    intro d dist hd q hq
    unfold AddDistributor at hd
    simp only at hd
    by_cases hlt : d < g.heap.length
    · rw [List.getElem?_append_left hlt] at hd
      exact ih d dist hd q hq
    · have hd' := getElem?_lt hd
      simp only [List.length_append, List.length_singleton] at hd'
      have hdl : d = g.heap.length := by omega
      subst hdl
      simp only [List.getElem?_concat_length, Option.some.injEq] at hd
      subst hd
      exact hpar q hq
  | set c g d0 incl excl _ ih =>
    intro d dist hd q hq
    unfold SetPermissions at hd
    simp only [modifyAt_getElem?] at hd
    by_cases hdd : d = d0
    · simp only [hdd, if_true, Option.map_eq_some'] at hd
      obtain ⟨x, hx, rfl⟩ := hd
      rw [(setPermissionsOn_spec c x incl excl).2.2.2] at hq
      rw [hdd]
      exact ih d0 x hx q hq
    · simp only [hdd, if_false] at hd
      exact ih d dist hd q hq

/-- The value of `HasPermission` is the value of the `return` statement recorded
by `HasPermissionAt`. -/
theorem HasPermission_eq_at (c : Catalog) (g : Registry) (location : String) :
    ∀ (fuel : Nat) (d : Ptr),
      HasPermission c g fuel d location =
        (HasPermissionAt c g fuel d location).map ReturnPoint.value := by
  intro fuel
  induction fuel with
  | zero => intro d; rfl
  | succ n ih =>
    intro d
    rw [HasPermission, HasPermissionAt]
    cases c.regions location with
    | none => rfl
    | some region =>
      simp only
      cases g.heap[d]? with
      | none => rfl
      | some dist =>
        simp only
        cases walk c dist n (some region) with
        | none => rfl
        | some x =>
          cases x with
          | some b => cases b <;> rfl
          | none =>
            simp only
            cases dist.Parent with
            | none => rfl
            | some parent => exact ih parent

/-- With parents allocated before their children on both sides, a call of
`HasPermission` on the distributor at address `d` leaves through a `return`
statement once the fuel reaches the number of region objects plus `d + 1`. -/
theorem HasPermissionAt_terminates (c : Catalog) (g : Registry) (location : String)
    (hb : ParentBelow c) (hreg : Registered c) (he : ParentEarlier g) :
    ∀ d : Nat, d < g.heap.length →
      ∃ rp, ∀ fuel, c.heap.length + d + 1 ≤ fuel →
        HasPermissionAt c g fuel d location = some rp := by
  intro d
  induction d using Nat.strong_induction_on with
  | _ d ih =>
    intro hd
    obtain ⟨dist, hdist⟩ := getElem?_of_lt hd
    cases hl : c.regions location with
    | none =>
      refine ⟨.unknownRegion, fun fuel hf => ?_⟩
      obtain ⟨f, rfl⟩ : ∃ f, fuel = f + 1 := ⟨fuel - 1, by omega⟩
      rw [HasPermissionAt, hl]
    | some region =>
      obtain ⟨r, hr, _⟩ := hreg.1 location region hl
      have hlt := getElem?_lt hr
      obtain ⟨x, hx0⟩ := walk_terminates c hb dist region hlt
      have hx : ∀ fuel, c.heap.length ≤ fuel → walk c dist fuel (some region) = some x :=
        fun fuel hf => hx0 fuel (Nat.succ_le_of_lt (Nat.lt_of_lt_of_le hlt hf))
      cases x with
      | some b =>
        refine ⟨if b then .includedRegion else .excludedRegion, fun fuel hf => ?_⟩
        obtain ⟨f, rfl⟩ : ∃ f, fuel = f + 1 := ⟨fuel - 1, by omega⟩
        rw [HasPermissionAt]
        simp only [hl, hdist, hx f (by omega)]
        cases b <;> rfl
      | none =>
        cases hp : dist.Parent with
        | none =>
          refine ⟨.noParent, fun fuel hf => ?_⟩
          obtain ⟨f, rfl⟩ : ∃ f, fuel = f + 1 := ⟨fuel - 1, by omega⟩
          rw [HasPermissionAt]
          simp only [hl, hdist, hx f (by omega), hp]
        | some parent =>
          have hlt' := he d dist hdist parent hp
          obtain ⟨rp, hrp⟩ := ih parent hlt' (by omega)
          refine ⟨rp, fun fuel hf => ?_⟩
          obtain ⟨f, rfl⟩ : ∃ f, fuel = f + 1 := ⟨fuel - 1, by omega⟩
          rw [HasPermissionAt]
          simp only [hl, hdist, hx f (by omega), hp]
          exact hrp f (by omega)

/-- C15: resolution always terminates.  Over a catalog loaded from the empty one
and a registry built by `AddDistributor` (parent nil or an earlier distributor)
and `SetPermissions`, for every distributor and every location code there is one
of the four `return` statements through which `HasPermission` leaves for every
fuel from the number of region objects plus `d + 1` on, with that statement's
boolean as result. -/
theorem C15_resolution_terminates (records : List Record) (g : Registry) (d : Nat)
    (location : String) (hg : Built g) (hd : d < g.heap.length) :
    ∃ rp : ReturnPoint, ∀ fuel,
      (LoadRegionsFromCSV Catalog.empty records).heap.length + d + 1 ≤ fuel →
      HasPermissionAt (LoadRegionsFromCSV Catalog.empty records) g fuel d location = some rp ∧
      HasPermission (LoadRegionsFromCSV Catalog.empty records) g fuel d location
        = some rp.value := by
  have hreg := load_registered records Catalog.empty empty_registered
  have hb := load_parentBelow records Catalog.empty empty_registered empty_parentBelow
  obtain ⟨rp, hrp⟩ := HasPermissionAt_terminates _ g location hb hreg
    (built_parentEarlier g hg) d hd
  refine ⟨rp, fun fuel hf => ⟨hrp fuel hf, ?_⟩⟩
  rw [HasPermission_eq_at, hrp fuel hf]
  rfl

/-- The registry `registryChild` is made by the program's operations. -/
theorem registryChild_built : Built registryChild :=
  Built.add _ "child" (some 0)
    (Built.set catalogBLR _ 0 ["IN"] []
      (Built.add _ "P" none Built.start (fun _ h => nomatch h)))
    (fun q h => by cases h; decide)

/-- Witness of C15: the child of P over the catalog of the row BLR, KA, IN,
asked for the city BLR-KA-IN. -/
theorem C15_resolution_terminates_witness :
    ∃ rp : ReturnPoint, ∀ fuel,
      catalogBLR.heap.length + 1 + 1 ≤ fuel →
      HasPermissionAt catalogBLR registryChild fuel 1 "BLR-KA-IN" = some rp ∧
      HasPermission catalogBLR registryChild fuel 1 "BLR-KA-IN" = some rp.value :=
  C15_resolution_terminates
    [{ cityCode := "BLR", stateCode := "KA", countryCode := "IN",
       cityName := "Bangalore", stateName := "Karnataka", countryName := "India" }]
    registryChild 1 "BLR-KA-IN" registryChild_built (by decide)

/-! ## Claims on AddDistributor and on the hierarchy of hyphen-free codes -/

/-- C16 as stated fails: `AddDistributor("D1", nil)` called twice does not fail
the second time and does not leave the registry unchanged: it allocates a second
object, returns its address 1 and stores it under D1 in place of address 0. -/
theorem C16_duplicate_name_counterexample :
    (AddDistributor Registry.empty "D1" none).1.distributors "D1" = some 0 ∧
    (AddDistributor (AddDistributor Registry.empty "D1" none).1 "D1" none).2 = 1 ∧
    (AddDistributor (AddDistributor Registry.empty "D1" none).1 "D1" none).1.distributors "D1"
      = some 1 ∧
    (AddDistributor (AddDistributor Registry.empty "D1" none).1 "D1" none).1.heap.length = 2 := by
  decide

/-- C16, amended: `AddDistributor(name, parent)` always succeeds.  It returns the
address of a new object with the given name and parent and empty `Includes` and
`Excludes`, stores that address under `name` whether or not the name was a key
before, and leaves every other key of `distributors` and every existing
distributor object as it was. -/
theorem C16_addDistributor (g : Registry) (name : String) (parent : Option Ptr) :
    (AddDistributor g name parent).2 = g.heap.length ∧
    (AddDistributor g name parent).1.heap[(AddDistributor g name parent).2]? =
      some { Name := name, Includes := GoMap.empty, Excludes := GoMap.empty, Parent := parent } ∧
    (AddDistributor g name parent).1.distributors name = some (AddDistributor g name parent).2 ∧
    (∀ n, n ≠ name → (AddDistributor g name parent).1.distributors n = g.distributors n) ∧
    (∀ (d : Nat) (dist : Distributor), g.heap[d]? = some dist →
      (AddDistributor g name parent).1.heap[d]? = some dist) := by
  refine ⟨rfl, AddDistributor_get g name parent, ?_, ?_, ?_⟩
  · simp [AddDistributor, GoMap.set]
  · intro n hn
    simp [AddDistributor, GoMap.set, hn]
  · intro d dist hd
    unfold AddDistributor
    simp only
    rw [List.getElem?_append_left (getElem?_lt hd)]
    exact hd

/-- Witness of C16: adding the name D1 a second time keeps the first object at
address 0. -/
theorem C16_addDistributor_witness :
    (AddDistributor (AddDistributor Registry.empty "D1" none).1 "D1" (some 0)).1.heap[0]? =
      some { Name := "D1", Includes := GoMap.empty, Excludes := GoMap.empty, Parent := none } :=
  (C16_addDistributor (AddDistributor Registry.empty "D1" none).1 "D1" (some 0)).2.2.2.2 0
    { Name := "D1", Includes := GoMap.empty, Excludes := GoMap.empty, Parent := none } rfl

/-- C17: well-formed hierarchy under hyphen-free codes.  When no city, state or
country code of the loaded rows contains a hyphen, then for every row the region
under the country code has no parent, the region under the full state code has
the region under the country code as parent, and the region under the full city
code has the region under the full state code as parent; codes of different
levels never coincide, and the ancestor sequences have 1, 2 and 3 regions. -/
theorem C17_hierarchy_hyphen_free (records : List Record) (rec : Record)
    (hall : ∀ r ∈ records,
      hyphens r.cityCode = 0 ∧ hyphens r.stateCode = 0 ∧ hyphens r.countryCode = 0)
    (hrec : rec ∈ records) :
    (∃ p0 p1 p2 r0 r1 r2,
      (LoadRegionsFromCSV Catalog.empty records).regions rec.countryCode = some p0 ∧
      (LoadRegionsFromCSV Catalog.empty records).heap[p0]? = some r0 ∧
      r0.Code = rec.countryCode ∧ r0.Parent = none ∧
      (LoadRegionsFromCSV Catalog.empty records).regions
        (rec.stateCode ++ "-" ++ rec.countryCode) = some p1 ∧
      (LoadRegionsFromCSV Catalog.empty records).heap[p1]? = some r1 ∧
      r1.Code = rec.stateCode ++ "-" ++ rec.countryCode ∧ r1.Parent = some p0 ∧
      (LoadRegionsFromCSV Catalog.empty records).regions
        (rec.cityCode ++ "-" ++ (rec.stateCode ++ "-" ++ rec.countryCode)) = some p2 ∧
      (LoadRegionsFromCSV Catalog.empty records).heap[p2]? = some r2 ∧
      r2.Code = rec.cityCode ++ "-" ++ (rec.stateCode ++ "-" ++ rec.countryCode) ∧
      r2.Parent = some p1 ∧
      ∀ fuel : Nat,
        (ancestorsOf (LoadRegionsFromCSV Catalog.empty records) (fuel + 3) (some p0)).map
          List.length = some 1 ∧
        (ancestorsOf (LoadRegionsFromCSV Catalog.empty records) (fuel + 3) (some p1)).map
          List.length = some 2 ∧
        (ancestorsOf (LoadRegionsFromCSV Catalog.empty records) (fuel + 3) (some p2)).map
          List.length = some 3) ∧
    (∀ other ∈ records,
      rec.countryCode ≠ other.stateCode ++ "-" ++ other.countryCode ∧
      rec.countryCode ≠
        other.cityCode ++ "-" ++ (other.stateCode ++ "-" ++ other.countryCode) ∧
      rec.stateCode ++ "-" ++ rec.countryCode ≠
        other.cityCode ++ "-" ++ (other.stateCode ++ "-" ++ other.countryCode)) := by
  have hf : HyphenFree records := fun r hr => ⟨(hall r hr).2.1, (hall r hr).2.2⟩
  have hreg := load_registered records Catalog.empty empty_registered
  have hs := load_shaped records Catalog.empty hf empty_shaped
  have hhas := load_has records Catalog.empty rec hrec
  generalize LoadRegionsFromCSV Catalog.empty records = c at hreg hs hhas ⊢
  obtain ⟨hci, hst, hco⟩ := hall rec hrec
  have hsk : hyphens (rec.stateCode ++ "-" ++ rec.countryCode) = 1 := by
    rw [hyphens_join, hst, hco]
  have hck : hyphens (rec.cityCode ++ "-" ++ (rec.stateCode ++ "-" ++ rec.countryCode)) = 2 := by
    rw [hyphens_join, hsk, hci]
  constructor
  · obtain ⟨h0, h1, h2⟩ := hhas
    cases e0 : c.regions rec.countryCode with
    | none => simp [GoMap.has, e0] at h0
    | some p0 =>
    cases e1 : c.regions (rec.stateCode ++ "-" ++ rec.countryCode) with
    | none => simp [GoMap.has, e1] at h1
    | some p1 =>
    cases e2 : c.regions
        (rec.cityCode ++ "-" ++ (rec.stateCode ++ "-" ++ rec.countryCode)) with
    | none => simp [GoMap.has, e2] at h2
    | some p2 =>
    obtain ⟨r0, g0, c0, n0⟩ := country_of_key c hreg hs _ p0 e0 hco
    obtain ⟨r1, q1, x0, a1, g1, c1, par1, gq1, _, hx0, ab1⟩ :=
      state_of_key c hreg hs _ p1 e1 hsk
    obtain ⟨r2, q2, x1, _, _, a2, _, g2, c2, par2, gq2, _, hx1, _, _, _, ab2, _⟩ :=
      city_of_key c hreg hs _ p2 e2 (by omega)
    have k1 : x0.Code = rec.countryCode :=
      (join_inj _ _ _ _ (by rw [hx0, hco]) ab1).2.symm
    have q1p0 : q1 = p0 := by
      have := hreg.2 q1 x0 gq1
      rw [k1, e0] at this
      exact (Option.some.inj this).symm
    have k2 : x1.Code = rec.stateCode ++ "-" ++ rec.countryCode :=
      (join_inj _ _ _ _ (by rw [hx1, hsk]) ab2).2.symm
    have q2p1 : q2 = p1 := by
      have := hreg.2 q2 x1 gq2
      rw [k2, e1] at this
      exact (Option.some.inj this).symm
    refine ⟨p0, p1, p2, r0, r1, r2, rfl, g0, c0, n0, rfl, g1, c1, by rw [par1, q1p0], rfl, g2, c2,
      by rw [par2, q2p1], fun fuel => ⟨?_, ?_, ?_⟩⟩
    · obtain ⟨l, hl, hlen⟩ := ancestorsOf_key c hreg hs _ p0 e0 fuel
      rw [hl, Option.map_some', hlen, hco]
      rfl
    · obtain ⟨l, hl, hlen⟩ := ancestorsOf_key c hreg hs _ p1 e1 fuel
      rw [hl, Option.map_some', hlen, hsk]
      rfl
    · obtain ⟨l, hl, hlen⟩ := ancestorsOf_key c hreg hs _ p2 e2 fuel
      rw [hl, Option.map_some', hlen, hck]
      rfl
  · intro other hother
    obtain ⟨oci, ost, oco⟩ := hall other hother
    have osk : hyphens (other.stateCode ++ "-" ++ other.countryCode) = 1 := by
      rw [hyphens_join, ost, oco]
    have ock : hyphens
        (other.cityCode ++ "-" ++ (other.stateCode ++ "-" ++ other.countryCode)) = 2 := by
      rw [hyphens_join, osk, oci]
    refine ⟨fun h => ?_, fun h => ?_, fun h => ?_⟩
    · have := congrArg hyphens h
      rw [hco, osk] at this
      omega
    · have := congrArg hyphens h
      rw [hco, ock] at this
      omega
    · have := congrArg hyphens h
      rw [hsk, ock] at this
      omega

/-- None of the three codes of the row BLR, KA, IN contains a hyphen. -/
theorem noHyphen_rowBLR :
    ∀ r ∈ [({ cityCode := "BLR", stateCode := "KA", countryCode := "IN",
              cityName := "Bangalore", stateName := "Karnataka", countryName := "India" } :
            Record)],
      hyphens r.cityCode = 0 ∧ hyphens r.stateCode = 0 ∧ hyphens r.countryCode = 0 := by
  intro r h
  rw [List.mem_singleton] at h
  subst h
  exact ⟨by decide, by decide, by decide⟩

/-- Witness of C17: in the catalog of the row BLR, KA, IN the region under KA-IN
has the region under IN as parent, and the region under BLR-KA-IN has the region
under KA-IN as parent. -/
theorem C17_hierarchy_hyphen_free_witness :
    ∃ p0 p1 p2 r1 r2,
      catalogBLR.regions "IN" = some p0 ∧ catalogBLR.regions "KA-IN" = some p1 ∧
      catalogBLR.regions "BLR-KA-IN" = some p2 ∧
      catalogBLR.heap[p1]? = some r1 ∧ r1.Parent = some p0 ∧
      catalogBLR.heap[p2]? = some r2 ∧ r2.Parent = some p1 := by
  obtain ⟨p0, p1, p2, _, r1, r2, h0, _, _, _, h1, g1, _, par1, h2, g2, _, par2, _⟩ :=
    (C17_hierarchy_hyphen_free
      [{ cityCode := "BLR", stateCode := "KA", countryCode := "IN",
         cityName := "Bangalore", stateName := "Karnataka", countryName := "India" }]
      { cityCode := "BLR", stateCode := "KA", countryCode := "IN",
        cityName := "Bangalore", stateName := "Karnataka", countryName := "India" }
      noHyphen_rowBLR (List.mem_singleton.2 rfl)).1
  exact ⟨p0, p1, p2, r1, r2, h0, h1, h2, g1, par1, g2, par2⟩

/-! ## Soundness of a grant, and children beyond their parent -/

/-- A loop that returns true has met a region whose code is included. -/
theorem walk_true (c : Catalog) (d : Distributor) :
    ∀ (fuel : Nat) (p : Ptr), walk c d fuel (some p) = some (some true) →
      ∃ n r, nthAncestor c n p = some r ∧ d.Includes.has r.Code = true := by
  intro fuel
  induction fuel with
  | zero => intro p h; simp [walk] at h
  | succ f ih =>
    intro p h
    rw [walk] at h
    cases hp : c.heap[p]? with
    | none => simp [hp] at h
    | some r =>
      simp only [hp] at h
      by_cases he : d.Excludes.has r.Code = true
      · simp [he] at h
      · by_cases hi : d.Includes.has r.Code = true
        · exact ⟨0, r, by simpa [nthAncestor] using hp, hi⟩
        · simp only [he, hi, if_false] at h
          cases hq : r.Parent with
          | none =>
            rw [hq] at h
            cases f <;> simp [walk] at h
          | some q =>
            rw [hq] at h
            obtain ⟨n, r', hn, hr'⟩ := ih q h
            exact ⟨n + 1, r', by simp [nthAncestor, hp, hq, hn], hr'⟩

/-- C19: soundness of ALLOW.  Whenever `HasPermission(d, loc)` returns true, `loc`
is a key of the catalog and some distributor on the parent chain of `d` (`d`
itself after 0 steps) has in its `Includes` the code of a region on the ancestor
walk of `loc`. -/
theorem C19_allow_needs_include (c : Catalog) (g : Registry) (location : String) (fuel : Nat)
    (d : Ptr) (h : HasPermission c g fuel d location = some true) :
    ∃ region, c.regions location = some region ∧
      ∃ (m : Nat) (dist : Distributor) (n : Nat) (r : Region),
        nthParent g m d = some dist ∧ nthAncestor c n region = some r ∧
        dist.Includes.has r.Code = true := by
  induction fuel generalizing d with
  | zero => simp [HasPermission] at h
  | succ f ih =>
    rw [HasPermission] at h
    cases hl : c.regions location with
    | none => simp [hl] at h
    | some region =>
      refine ⟨region, rfl, ?_⟩
      simp only [hl] at h
      cases hd : g.heap[d]? with
      | none => simp [hd] at h
      | some dist =>
        simp only [hd] at h
        cases hw : walk c dist f (some region) with
        | none => simp [hw] at h
        | some x =>
          simp only [hw] at h
          cases x with
          | some b =>
            simp only [Option.some.injEq] at h
            subst h
            obtain ⟨n, r, hn, hr⟩ := walk_true c dist f region hw
            exact ⟨0, dist, n, r, by simpa [nthParent] using hd, hn, hr⟩
          | none =>
            simp only at h
            cases hp : dist.Parent with
            | none => simp [hp] at h
            | some parent =>
              simp only [hp] at h
              obtain ⟨region', hl', m, dist', n, r, hm, hn, hr⟩ := ih parent h
              rw [hl] at hl'
              cases hl'
              exact ⟨m + 1, dist', n, r, by simp [nthParent, hd, hp, hm], hn, hr⟩

/-- Witness of C19: the child of P is allowed on BLR-KA-IN; the rule is the
include of IN one step up the parent chain, two steps up the ancestor walk. -/
theorem C19_allow_needs_include_witness :
    ∃ region, catalogBLR.regions "BLR-KA-IN" = some region ∧
      ∃ (m : Nat) (dist : Distributor) (n : Nat) (r : Region),
        nthParent registryChild m 1 = some dist ∧ nthAncestor catalogBLR n region = some r ∧
        dist.Includes.has r.Code = true :=
  C19_allow_needs_include catalogBLR registryChild "BLR-KA-IN" 6 1 rfl

/-- C20: a child is not confined to its parent.  Over the catalog of the row
BLR, KA, IN, with P made by `AddDistributor("P", nil)` and
`SetPermissions([], ["IN"])` and C made by `AddDistributor("C", P)` and
`SetPermissions(["IN"], [])`: C has P as parent, `HasPermission(C, "IN")` is true
and `HasPermission(P, "IN")` is false, for every fuel from 2 on.  And the sets
that `SetPermissions` leaves in its receiver do not depend on the receiver's
`Parent`. -/
theorem C20_child_exceeds_parent :
    (∃ dc, registryOverride.heap[1]? = some dc ∧ dc.Parent = some 0) ∧
    (∀ fuel : Nat,
      HasPermission catalogBLR registryOverride (fuel + 2) 1 "IN" = some true ∧
      HasPermission catalogBLR registryOverride (fuel + 2) 0 "IN" = some false) ∧
    (∀ (c : Catalog) (dist : Distributor) (incl excl : List String) (parent : Option Ptr),
      (setPermissionsOn c { dist with Parent := parent } incl excl).Includes =
        (setPermissionsOn c dist incl excl).Includes ∧
      (setPermissionsOn c { dist with Parent := parent } incl excl).Excludes =
        (setPermissionsOn c dist incl excl).Excludes) := by
  refine ⟨⟨_, rfl, rfl⟩, fun fuel => ⟨?_, ?_⟩, fun c dist incl excl parent => ⟨?_, ?_⟩⟩
  · exact HasPermission_mono_le _ _ _ 2 _ _ _ (by omega) rfl
  · exact HasPermission_mono_le _ _ _ 2 _ _ _ (by omega) rfl
  · apply GoMap.ext_has
    intro k
    rw [(setPermissionsOn_spec c _ incl excl).1 k, (setPermissionsOn_spec c dist incl excl).1 k]
  · apply GoMap.ext_has
    intro k
    rw [(setPermissionsOn_spec c _ incl excl).2.1 k,
      (setPermissionsOn_spec c dist incl excl).2.1 k]

end QubeChallenge
